import Mathlib

/-!
# Verification of the confluence-poster markup transformation pipeline

This development gives a shallow embedding of the string-rewriting pipeline of
`confluence_poster/file_converter.py` (code-block, link, admonition and footnote
passes), of the directory conversion driver, and of the session builder of
`confluence_poster/confluence_session_builder.py`, and proves or refutes the
frozen specification claims about them.

Strings are modelled as `List Char`.  Python's `str.replace` and the specific
regular expressions used by the source are modelled by explicit scanners; the
scanners that skip a variable number of characters take a fuel argument which
every caller instantiates with the length of the scanned string (an upper bound
on the number of scanning steps, since every step consumes at least one
character).  Python exceptions (the unguarded `IndexError` of
`rsplit('-', 1)[1]`, the `AttributeError` of `re.search(...).group(1)` on a
failed search) are modelled by `Option`, with `none` for a raised exception.
-/

set_option maxRecDepth 100000

/-- Characters of a string literal. -/
def cs (s : String) : List Char := s.data

/-- Python `str.strip()` whitespace test (ASCII whitespace, as produced here). -/
def pyIsSpace (c : Char) : Bool :=
  c = ' ' || c = '\t' || c = '\n' || c = '\r' || c.val = 11 || c.val = 12

/-- Python `str.strip()`: drop whitespace from both ends. -/
def pyStrip (s : List Char) : List Char :=
  ((s.dropWhile pyIsSpace).reverse.dropWhile pyIsSpace).reverse

/-- Boolean prefix test on character lists. -/
def isPre : List Char → List Char → Bool
  | [], _ => true
  | _ :: _, [] => false
  | p :: ps, c :: rest => p = c && isPre ps rest

/-- `hasSubB pat s` holds when `pat` occurs as a contiguous substring of `s`. -/
def hasSubB (pat : List Char) : List Char → Bool
  | [] => isPre pat []
  | c :: rest => isPre pat (c :: rest) || hasSubB pat rest

/-- `failsIn pat t` holds when matching `pat` against `t ++ b` is bound to fail
within the characters of `t`, whatever `b` is. -/
def failsIn : List Char → List Char → Bool
  | [], _ => false
  | _ :: _, [] => false
  | p :: ps, c :: rest => (p != c) || failsIn ps rest

/-- `noMatchWithin pat a` holds when no suffix of `a` can start a match of
`pat`, even one extending past the end of `a`. -/
def noMatchWithin (pat : List Char) : List Char → Bool
  | [] => true
  | c :: rest => failsIn pat (c :: rest) && noMatchWithin pat rest

/-- Python `str.replace(old, new)` (all occurrences, left to right, the
replacement is not rescanned), with fuel; `old` is never empty in this
development. -/
def replaceAllF (pat new : List Char) : Nat → List Char → List Char
  | _, [] => []
  | 0, s => s
  | fuel + 1, c :: rest =>
    if isPre pat (c :: rest) then
      new ++ replaceAllF pat new fuel ((c :: rest).drop pat.length)
    else
      c :: replaceAllF pat new fuel rest

/-- Python `str.replace(old, new)`. -/
def replaceAll (s pat new : List Char) : List Char :=
  replaceAllF pat new s.length s

/-- Split a list at the first occurrence of `pat`:
`splitFirst s pat = some (a, b)` with `s = a ++ pat ++ b` and no occurrence of
`pat` starting inside `a`. -/
def splitFirst : List Char → List Char → Option (List Char × List Char)
  | [], pat => if isPre pat [] then some ([], []) else none
  | c :: rest, pat =>
    if isPre pat (c :: rest) then some ([], (c :: rest).drop pat.length)
    else (splitFirst rest pat).map (fun p => (c :: p.1, p.2))

/-! ## Basic lemmas about the helpers -/

theorem isPre_eq_true_iff : ∀ (p s : List Char), isPre p s = true ↔ p <+: s
  | [], s => by simp [isPre]
  | _ :: _, [] => by simp [isPre]
  | p :: ps, c :: rest => by
    simp only [isPre, Bool.and_eq_true, decide_eq_true_eq, isPre_eq_true_iff ps rest,
      List.cons_prefix_cons]

theorem isPre_append (p s t : List Char) (h : isPre p s = true) :
    isPre p (s ++ t) = true := by
  rw [isPre_eq_true_iff] at h ⊢
  exact h.trans (List.prefix_append s t)

theorem isPre_refl_append (p t : List Char) : isPre p (p ++ t) = true := by
  rw [isPre_eq_true_iff]; exact List.prefix_append p t

theorem failsIn_sound : ∀ (pat t : List Char), failsIn pat t = true →
    ∀ b, isPre pat (t ++ b) = false
  | [], t, h => by simp [failsIn] at h
  | _ :: _, [], h => by simp [failsIn] at h
  | p :: ps, c :: rest, h => by
    intro b
    simp only [failsIn, Bool.or_eq_true, bne_iff_ne] at h
    simp only [List.cons_append, isPre, Bool.and_eq_false_iff]
    rcases h with h | h
    · exact Or.inl (by simpa using h)
    · exact Or.inr (failsIn_sound ps rest h b)

theorem failsIn_of_head_ne (p : Char) (ps : List Char) (c : Char) (rest : List Char)
    (h : c ≠ p) : failsIn (p :: ps) (c :: rest) = true := by
  simp [failsIn, bne_iff_ne, Ne.symm h]

theorem noMatchWithin_of_head_ne (p : Char) (ps a : List Char)
    (h : ∀ c ∈ a, c ≠ p) : noMatchWithin (p :: ps) a = true := by
  induction a with
  | nil => rfl
  | cons c rest ih =>
    simp only [noMatchWithin, Bool.and_eq_true]
    exact ⟨failsIn_of_head_ne p ps c rest (h c (List.mem_cons_self c rest)),
      ih (fun x hx => h x (List.mem_cons_of_mem c hx))⟩

theorem failsIn_append : ∀ (pat t b : List Char), failsIn pat t = true →
    failsIn pat (t ++ b) = true
  | [], t, b, h => by simp [failsIn] at h
  | _ :: _, [], b, h => by simp [failsIn] at h
  | p :: ps, c :: rest, b, h => by
    simp only [failsIn, Bool.or_eq_true, List.cons_append] at h ⊢
    rcases h with h | h
    · exact Or.inl h
    · exact Or.inr (failsIn_append ps rest b h)

theorem noMatchWithin_append (pat a b : List Char)
    (ha : noMatchWithin pat a = true) (hb : noMatchWithin pat b = true) :
    noMatchWithin pat (a ++ b) = true := by
  induction a with
  | nil => simpa using hb
  | cons c rest ih =>
    simp only [noMatchWithin, Bool.and_eq_true, List.cons_append] at ha ⊢
    exact ⟨failsIn_append pat (c :: rest) b ha.1, ih ha.2⟩

theorem ne_nil_of_failsIn (pat t : List Char) (h : failsIn pat t = true) : pat ≠ [] := by
  cases pat with
  | nil => simp [failsIn] at h
  | cons p ps => exact List.cons_ne_nil p ps

theorem hasSubB_eq_false_of_noMatchWithin (pat s : List Char) (hpat : pat ≠ [])
    (h : noMatchWithin pat s = true) : hasSubB pat s = false := by
  induction s with
  | nil =>
    cases pat with
    | nil => exact absurd rfl hpat
    | cons p ps => rfl
  | cons c rest ih =>
    simp only [noMatchWithin, Bool.and_eq_true] at h
    have h1 : isPre pat (c :: rest) = false := by
      have := failsIn_sound pat (c :: rest) h.1 []
      simpa using this
    simp only [hasSubB, Bool.or_eq_false_iff]
    exact ⟨h1, ih h.2⟩

/-! ## replaceAll lemmas -/

theorem replaceAllF_fuel (pat new : List Char) (hpat : pat ≠ []) :
    ∀ f g s, s.length ≤ f → s.length ≤ g →
      replaceAllF pat new f s = replaceAllF pat new g s := by
  intro f
  induction f with
  | zero =>
    intro g s hf _
    have : s = [] := List.eq_nil_of_length_eq_zero (Nat.le_zero.mp hf)
    subst this
    cases g <;> rfl
  | succ f ih =>
    intro g s hf hg
    cases s with
    | nil => cases g <;> rfl
    | cons c rest =>
      cases g with
      | zero => simp at hg
      | succ g =>
        simp only [List.length_cons] at hf hg
        simp only [replaceAllF]
        by_cases hp : isPre pat (c :: rest) = true
        · rw [if_pos hp, if_pos hp]
          have hlen : ((c :: rest).drop pat.length).length ≤ f := by
            have h1 : 1 ≤ pat.length := by
              cases pat with
              | nil => exact absurd rfl hpat
              | cons _ _ => simp
            simp only [List.length_drop, List.length_cons]
            omega
          have hleng : ((c :: rest).drop pat.length).length ≤ g := by
            have h1 : 1 ≤ pat.length := by
              cases pat with
              | nil => exact absurd rfl hpat
              | cons _ _ => simp
            simp only [List.length_drop, List.length_cons]
            omega
          rw [ih g _ hlen hleng]
        · rw [if_neg hp, if_neg hp]
          have : rest.length ≤ f := by simpa using Nat.le_of_succ_le_succ hf
          have hg' : rest.length ≤ g := by simpa using Nat.le_of_succ_le_succ hg
          rw [ih g rest this hg']

theorem replaceAll_nil (pat new : List Char) : replaceAll [] pat new = [] := rfl

theorem replaceAll_cons_no (pat new : List Char) (c : Char) (rest : List Char)
    (h : isPre pat (c :: rest) = false) :
    replaceAll (c :: rest) pat new = c :: replaceAll rest pat new := by
  show replaceAllF pat new (rest.length + 1) (c :: rest) = _
  simp only [replaceAllF, h, Bool.false_eq_true, if_false]
  rfl

theorem replaceAll_match_step (pat new : List Char) (hpat : pat ≠ [])
    (c : Char) (rest : List Char) (h : isPre pat (c :: rest) = true) :
    replaceAll (c :: rest) pat new =
      new ++ replaceAll ((c :: rest).drop pat.length) pat new := by
  show replaceAllF pat new (rest.length + 1) (c :: rest) = _
  simp only [replaceAllF, h, if_true]
  congr 1
  apply replaceAllF_fuel pat new hpat
  · have h1 : 1 ≤ pat.length := by
      cases pat with
      | nil => exact absurd rfl hpat
      | cons _ _ => simp
    simp only [List.length_drop, List.length_cons]
    omega
  · exact Nat.le_refl _

theorem replaceAll_append (pat new a b : List Char)
    (ha : noMatchWithin pat a = true) :
    replaceAll (a ++ b) pat new = a ++ replaceAll b pat new := by
  induction a with
  | nil => rfl
  | cons c rest ih =>
    simp only [noMatchWithin, Bool.and_eq_true] at ha
    have h1 : isPre pat (c :: (rest ++ b)) = false := by
      have := failsIn_sound pat (c :: rest) ha.1 b
      simpa using this
    simp only [List.cons_append]
    rw [replaceAll_cons_no pat new c (rest ++ b) h1, ih ha.2]

theorem replaceAll_self (pat new s : List Char) (h : hasSubB pat s = false) :
    replaceAll s pat new = s := by
  induction s with
  | nil => rfl
  | cons c rest ih =>
    simp only [hasSubB, Bool.or_eq_false_iff] at h
    rw [replaceAll_cons_no pat new c rest h.1, ih h.2]

theorem replaceAll_at_head (pat new b : List Char) (hpat : pat ≠ []) :
    replaceAll (pat ++ b) pat new = new ++ replaceAll b pat new := by
  cases hp : pat ++ b with
  | nil =>
    cases pat with
    | nil => exact absurd rfl hpat
    | cons _ _ => simp at hp
  | cons c rest =>
    rw [← hp]
    cases pat with
    | nil => exact absurd rfl hpat
    | cons p ps =>
      have hpre : isPre (p :: ps) ((p :: ps) ++ b) = true := isPre_refl_append _ b
      have hne : (p :: ps) ++ b = p :: (ps ++ b) := by simp
      rw [hne] at hpre ⊢
      rw [replaceAll_match_step (p :: ps) new hpat p (ps ++ b) hpre]
      congr 1
      have : (p :: (ps ++ b)).drop (p :: ps).length = b := by
        have : p :: (ps ++ b) = (p :: ps) ++ b := by simp
        rw [this, List.drop_left]
      rw [this]

/-! ## splitFirst lemmas -/

theorem splitFirst_cons_no (pat : List Char) (c : Char) (rest : List Char)
    (h : isPre pat (c :: rest) = false) :
    splitFirst (c :: rest) pat = (splitFirst rest pat).map (fun p => (c :: p.1, p.2)) := by
  simp only [splitFirst, h, Bool.false_eq_true, if_false]

theorem splitFirst_at_head (pat b : List Char) (hpat : pat ≠ []) :
    splitFirst (pat ++ b) pat = some ([], b) := by
  cases pat with
  | nil => exact absurd rfl hpat
  | cons p ps =>
    have hpre : isPre (p :: ps) ((p :: ps) ++ b) = true := isPre_refl_append _ b
    have hne : (p :: ps) ++ b = p :: (ps ++ b) := by simp
    rw [hne] at hpre
    show splitFirst (p :: (ps ++ b)) (p :: ps) = _
    simp only [splitFirst, hpre, if_true]
    have : (p :: (ps ++ b)).drop (p :: ps).length = b := by
      have h2 : p :: (ps ++ b) = (p :: ps) ++ b := by simp
      rw [h2, List.drop_left]
    rw [this]

theorem splitFirst_append (pat a b : List Char) (ha : noMatchWithin pat a = true) :
    splitFirst (a ++ b) pat = (splitFirst b pat).map (fun p => (a ++ p.1, p.2)) := by
  induction a with
  | nil =>
    simp only [List.nil_append]
    cases h : splitFirst b pat <;> simp
  | cons c rest ih =>
    simp only [noMatchWithin, Bool.and_eq_true] at ha
    have h1 : isPre pat (c :: (rest ++ b)) = false := by
      have := failsIn_sound pat (c :: rest) ha.1 b
      simpa using this
    simp only [List.cons_append]
    rw [splitFirst_cons_no pat c (rest ++ b) h1, ih ha.2]
    cases h : splitFirst b pat <;> simp

theorem splitFirst_none (pat s : List Char) (h : hasSubB pat s = false) :
    splitFirst s pat = none := by
  induction s with
  | nil =>
    simp only [hasSubB] at h
    simp only [splitFirst, h, Bool.false_eq_true, if_false]
  | cons c rest ih =>
    simp only [hasSubB, Bool.or_eq_false_iff] at h
    rw [splitFirst_cons_no pat c rest h.1, ih h.2]
    rfl

theorem splitFirst_exact (pat a b : List Char) (hpat : pat ≠ [])
    (ha : noMatchWithin pat a = true) :
    splitFirst (a ++ pat ++ b) pat = some (a, b) := by
  rw [List.append_assoc, splitFirst_append pat a (pat ++ b) ha,
    splitFirst_at_head pat b hpat]
  simp

/-! ## The code-block pass (`FileConverter._convert_code_block`)

Models `re.sub(r'<pre><code[^>]*?(?: class="(?P<class>[^"]*)")?[^>]*?>'
`r'(?P<content>.*?)</code></pre>', _replace, html, flags=re.DOTALL)`.

The open-tag part of the pattern captures the `class` group exactly when
` class="` immediately follows `<pre><code` (the first lazy `[^>]*?` prefers
the empty match and the optional group is tried before extending the second
lazy `[^>]*?`, which can absorb any non-`>` characters up to the first `>`).
When the group path cannot reach a `>` after the closing quote, the engine
falls back to the group-empty path ending at the first `>` anywhere after
`<pre><code`.  `(?P<content>.*?)` with DOTALL captures everything up to the
first `</code></pre>`. -/

namespace FileConverter

/-- `[^>]*?>` at the start of `r`: the rest of `r` after its first `>`. -/
def gtSplit (r : List Char) : Option (List Char) :=
  (splitFirst r (cs ">")).map (fun p => p.2)

/-- Result of matching the open tag `<pre><code ... >`: the optional class
attribute value and the rest of the input after the closing `>`.  The class
group is captured exactly when ` class="` immediately follows and has a closing
quote followed (possibly after other non-`>` characters) by a `>`; otherwise
the engine falls back to the group-empty path ending at the first `>`. -/
def codeOpen (r : List Char) : Option (Option (List Char) × List Char) :=
  if isPre (cs " class=\"") r then
    match splitFirst (r.drop 8) (cs "\"") with
    | some (v, r3) =>
      match gtSplit r3 with
      | some a => some (some v, a)
      | none => (gtSplit r).map (fun a => (none, a))
    | none => (gtSplit r).map (fun a => (none, a))
  else (gtSplit r).map (fun a => (none, a))

/-- `_process_language`: `'none'` when no class attribute, otherwise
`lang.rsplit('-', 1)[1]`, which raises `IndexError` (modelled `none`) when the
class value contains no hyphen. -/
def process_language : Option (List Char) → Option (List Char)
  | none => some (cs "none")
  | some v =>
    if v.contains '-' then some ((v.reverse.takeWhile (fun c => c ≠ '-')).reverse)
    else none

/-- Entity unescaping applied to the CDATA body, in source order:
`&amp;` then `&quot;` then `&lt;` then `&gt;`. -/
def unescapeEntities (s : List Char) : List Char :=
  replaceAll (replaceAll (replaceAll (replaceAll s (cs "&amp;") (cs "&"))
    (cs "&quot;") (cs "\"")) (cs "&lt;") (cs "<")) (cs "&gt;") (cs ">")

/-- The fixed macro header with the `theme` and `linenumbers` parameters. -/
def code_header : List Char :=
  cs "<ac:structured-macro ac:name=\"code\"><ac:parameter ac:name=\"theme\">Midnight</ac:parameter><ac:parameter ac:name=\"linenumbers\">true</ac:parameter>"

/-- The replacement string built by `_replace` for one matched code block. -/
def code_replacement (lang content : List Char) : List Char :=
  code_header ++ cs "<ac:parameter ac:name=\"language\">" ++ lang ++
    cs "</ac:parameter>" ++
    unescapeEntities (cs "<ac:plain-text-body><![CDATA[" ++ content ++
      cs "]]></ac:plain-text-body>") ++
    cs "</ac:structured-macro>"

/-- The scanning loop of the code-block `re.sub`: leftmost matches, scanning
continues after each replaced match.  `none` models a raised `IndexError`. -/
def scanCodeF : Nat → List Char → Option (List Char)
  | _, [] => some []
  | 0, s => some s
  | fuel + 1, c :: rest =>
    if isPre (cs "<pre><code") (c :: rest) then
      match codeOpen ((c :: rest).drop 10) with
      | some (cls, afterOpen) =>
        match splitFirst afterOpen (cs "</code></pre>") with
        | some (content, after) =>
          match process_language cls with
          | some lang =>
            (scanCodeF fuel after).map (fun t => code_replacement lang content ++ t)
          | none => none
        | none => (scanCodeF fuel rest).map (fun t => c :: t)
      | none => (scanCodeF fuel rest).map (fun t => c :: t)
    else (scanCodeF fuel rest).map (fun t => c :: t)

/-- `FileConverter._convert_code_block`. -/
def convert_code_block (html : List Char) : Option (List Char) :=
  scanCodeF html.length html

end FileConverter

example : FileConverter.convert_code_block (cs "<pre><code class=\"language-python\">x = 1</code></pre>") =
    some (FileConverter.code_replacement (cs "python") (cs "x = 1")) := by decide

example : FileConverter.convert_code_block (cs "<pre><code>a&lt;b</code></pre>") =
    some (FileConverter.code_header ++ cs "<ac:parameter ac:name=\"language\">none</ac:parameter><ac:plain-text-body><![CDATA[a<b]]></ac:plain-text-body></ac:structured-macro>") := by decide

example : FileConverter.convert_code_block (cs "<pre><code class=\"python\">x</code></pre>") = none := by decide

example : FileConverter.convert_code_block (cs "no blocks here") = some (cs "no blocks here") := by decide

/-! ## takeWhile helpers -/

theorem takeWhile_append_all (p : Char → Bool) (a b : List Char)
    (h : ∀ c ∈ a, p c = true) :
    (a ++ b).takeWhile p = a ++ b.takeWhile p := by
  induction a with
  | nil => rfl
  | cons c rest ih =>
    simp only [List.cons_append, List.takeWhile_cons, h c (List.mem_cons_self c rest), if_true]
    rw [ih (fun x hx => h x (List.mem_cons_of_mem c hx))]

theorem splitFirst_length_le : ∀ (s pat : List Char) (p : List Char × List Char),
    splitFirst s pat = some p → p.2.length ≤ s.length
  | [], pat, p => by
    intro h
    simp only [splitFirst] at h
    by_cases hp : isPre pat [] = true
    · rw [if_pos hp] at h
      cases h
      simp
    · rw [if_neg hp] at h
      cases h
  | c :: rest, pat, p => by
    intro h
    simp only [splitFirst] at h
    by_cases hp : isPre pat (c :: rest) = true
    · rw [if_pos hp] at h
      cases h
      simp
    · rw [if_neg hp] at h
      simp only [Option.map_eq_some'] at h
      obtain ⟨q, hq, hqp⟩ := h
      have := splitFirst_length_le rest pat q hq
      subst hqp
      simp only [List.length_cons]
      omega

theorem splitFirst_length_lt : ∀ (s pat : List Char), pat ≠ [] →
    ∀ (p : List Char × List Char), splitFirst s pat = some p → p.2.length < s.length
  | [], pat, hpat, p => by
    intro h
    simp only [splitFirst] at h
    by_cases hp : isPre pat [] = true
    · rw [isPre_eq_true_iff] at hp
      exact absurd (List.prefix_nil.mp hp) hpat
    · rw [if_neg hp] at h
      cases h
  | c :: rest, pat, hpat, p => by
    intro h
    simp only [splitFirst] at h
    by_cases hp : isPre pat (c :: rest) = true
    · rw [if_pos hp] at h
      cases h
      have h1 : 1 ≤ pat.length := by
        cases pat with
        | nil => exact absurd rfl hpat
        | cons _ _ => simp
      simp only [List.length_drop, List.length_cons]
      omega
    · rw [if_neg hp] at h
      simp only [Option.map_eq_some'] at h
      obtain ⟨q, hq, hqp⟩ := h
      have := splitFirst_length_lt rest pat hpat q hq
      subst hqp
      simp only [List.length_cons]
      omega

theorem gtSplit_length (r a : List Char) (h : FileConverter.gtSplit r = some a) :
    a.length < r.length := by
  unfold FileConverter.gtSplit at h
  simp only [Option.map_eq_some'] at h
  obtain ⟨p, hp, hpa⟩ := h
  subst hpa
  exact splitFirst_length_lt r (cs ">") (by simp [cs]) p hp

theorem codeOpen_length (r : List Char) (cls : Option (List Char)) (a : List Char)
    (h : FileConverter.codeOpen r = some (cls, a)) : a.length < r.length := by
  unfold FileConverter.codeOpen at h
  by_cases h8 : isPre (cs " class=\"") r = true
  · rw [if_pos h8] at h
    cases hsp : splitFirst (r.drop 8) (cs "\"") with
    | none =>
      rw [hsp] at h
      simp only [Option.map_eq_some'] at h
      obtain ⟨b, hb, hba⟩ := h
      have hba2 : b = a := congrArg Prod.snd hba
      subst hba2
      exact gtSplit_length r b hb
    | some pr =>
      obtain ⟨v, r3⟩ := pr
      rw [hsp] at h
      dsimp only at h
      have hr3 : r3.length < (r.drop 8).length :=
        splitFirst_length_lt (r.drop 8) (cs "\"") (by simp [cs]) (v, r3) hsp
      simp only [List.length_drop] at hr3
      cases hg : FileConverter.gtSplit r3 with
      | some b =>
        rw [hg] at h
        simp only [Option.some.injEq] at h
        have hba2 : b = a := congrArg Prod.snd h
        subst hba2
        have := gtSplit_length r3 b hg
        omega
      | none =>
        rw [hg] at h
        simp only [Option.map_eq_some'] at h
        obtain ⟨b, hb, hba⟩ := h
        have hba2 : b = a := congrArg Prod.snd hba
        subst hba2
        exact gtSplit_length r b hb
  · rw [if_neg h8] at h
    simp only [Option.map_eq_some'] at h
    obtain ⟨b, hb, hba⟩ := h
    have hba2 : b = a := congrArg Prod.snd hba
    subst hba2
    exact gtSplit_length r b hb

theorem scanCodeF_fuel : ∀ f g s, s.length ≤ f → s.length ≤ g →
    FileConverter.scanCodeF f s = FileConverter.scanCodeF g s := by
  intro f
  induction f with
  | zero =>
    intro g s hf _
    have : s = [] := List.eq_nil_of_length_eq_zero (Nat.le_zero.mp hf)
    subst this
    cases g <;> rfl
  | succ f ih =>
    intro g s hf hg
    cases s with
    | nil => cases g <;> rfl
    | cons c rest =>
      cases g with
      | zero => simp at hg
      | succ g =>
        simp only [List.length_cons] at hf hg
        simp only [FileConverter.scanCodeF]
        by_cases hp : isPre (cs "<pre><code") (c :: rest) = true
        · rw [if_pos hp, if_pos hp]
          cases hopen : FileConverter.codeOpen ((c :: rest).drop 10) with
          | none => simp only; rw [ih g rest (by omega) (by omega)]
          | some pr =>
            obtain ⟨cls, afterOpen⟩ := pr
            have hlen1 := codeOpen_length ((c :: rest).drop 10) cls afterOpen hopen
            simp only [List.length_drop, List.length_cons] at hlen1
            cases hsp : splitFirst afterOpen (cs "</code></pre>") with
            | none => simp only [hsp]; rw [ih g rest (by omega) (by omega)]
            | some pr2 =>
              obtain ⟨content, after⟩ := pr2
              have hlen2 := splitFirst_length_le afterOpen (cs "</code></pre>") _ hsp
              simp only at hlen2
              cases hlang : FileConverter.process_language cls with
              | none => simp only [hsp, hlang]
              | some lang =>
                simp only [hsp, hlang]
                rw [ih g after (by omega) (by omega)]
        · rw [if_neg hp, if_neg hp]
          rw [ih g rest (by omega) (by omega)]

theorem ccb_cons_no (c : Char) (rest : List Char)
    (h : isPre (cs "<pre><code") (c :: rest) = false) :
    FileConverter.convert_code_block (c :: rest) =
      (FileConverter.convert_code_block rest).map (fun t => c :: t) := by
  show FileConverter.scanCodeF (rest.length + 1) (c :: rest) = _
  simp only [FileConverter.scanCodeF, h, Bool.false_eq_true, if_false]
  rfl

theorem ccb_append (a b : List Char)
    (ha : noMatchWithin (cs "<pre><code") a = true) :
    FileConverter.convert_code_block (a ++ b) =
      (FileConverter.convert_code_block b).map (fun t => a ++ t) := by
  induction a with
  | nil =>
    cases hb : FileConverter.convert_code_block b <;> simp [hb]
  | cons c rest ih =>
    simp only [noMatchWithin, Bool.and_eq_true] at ha
    have h1 : isPre (cs "<pre><code") (c :: (rest ++ b)) = false := by
      have := failsIn_sound _ (c :: rest) ha.1 b
      simpa using this
    simp only [List.cons_append]
    rw [ccb_cons_no c (rest ++ b) h1, ih ha.2]
    cases hb : FileConverter.convert_code_block b <;> simp [hb]

theorem ccb_self (s : List Char) (h : hasSubB (cs "<pre><code") s = false) :
    FileConverter.convert_code_block s = some s := by
  induction s with
  | nil => rfl
  | cons c rest ih =>
    simp only [hasSubB, Bool.or_eq_false_iff] at h
    rw [ccb_cons_no c rest h.1, ih h.2]
    rfl

theorem ccb_match (c : Char) (rest : List Char) (cls : Option (List Char))
    (afterOpen content after lang : List Char)
    (hpre : isPre (cs "<pre><code") (c :: rest) = true)
    (hopen : FileConverter.codeOpen ((c :: rest).drop 10) = some (cls, afterOpen))
    (hsplit : splitFirst afterOpen (cs "</code></pre>") = some (content, after))
    (hlang : FileConverter.process_language cls = some lang) :
    FileConverter.convert_code_block (c :: rest) =
      (FileConverter.convert_code_block after).map
        (fun t => FileConverter.code_replacement lang content ++ t) := by
  show FileConverter.scanCodeF (rest.length + 1) (c :: rest) = _
  simp only [FileConverter.scanCodeF, hpre, if_true, hopen, hsplit, hlang]
  have hlen1 := codeOpen_length ((c :: rest).drop 10) cls afterOpen hopen
  simp only [List.length_drop, List.length_cons] at hlen1
  have hlen2 := splitFirst_length_le afterOpen (cs "</code></pre>") _ hsplit
  simp only at hlen2
  rw [scanCodeF_fuel rest.length after.length after (by omega) (by omega)]
  rfl

theorem gtSplit_gt (u : List Char) : FileConverter.gtSplit ('>' :: u) = some u := by
  unfold FileConverter.gtSplit
  have : ('>' : Char) :: u = cs ">" ++ u := rfl
  rw [this, splitFirst_at_head (cs ">") u (by simp [cs])]
  rfl

theorem codeOpen_class (cls u : List Char) (hcls : ∀ ch ∈ cls, ch ≠ '"') :
    FileConverter.codeOpen (cs " class=\"" ++ cls ++ '"' :: '>' :: u) =
      some (some cls, u) := by
  have h8 : isPre (cs " class=\"") (cs " class=\"" ++ (cls ++ '"' :: '>' :: u)) = true :=
    isPre_refl_append _ _
  have hdrop8 : (cs " class=\"" ++ (cls ++ '"' :: '>' :: u)).drop 8 =
      cls ++ '"' :: '>' :: u := List.drop_left (cs " class=\"") _
  have hquote : ('"' : Char) :: '>' :: u = cs "\"" ++ ('>' :: u) := rfl
  have hsp : splitFirst (cls ++ '"' :: '>' :: u) (cs "\"") = some (cls, '>' :: u) := by
    rw [hquote]
    rw [show cls ++ (cs "\"" ++ ('>' :: u)) = cls ++ cs "\"" ++ ('>' :: u) by simp]
    exact splitFirst_exact (cs "\"") cls ('>' :: u) (by simp [cs])
      (noMatchWithin_of_head_ne '"' [] cls hcls)
  rw [List.append_assoc]
  unfold FileConverter.codeOpen
  rw [if_pos h8, hdrop8, hsp]
  dsimp only
  rw [gtSplit_gt]

theorem codeOpen_noclass (u : List Char) :
    FileConverter.codeOpen ('>' :: u) = some (none, u) := by
  have h8 : isPre (cs " class=\"") ('>' :: u) = false := by
    have : cs " class=\"" = ' ' :: cs "class=\"" := rfl
    rw [this]
    simp [isPre]
  unfold FileConverter.codeOpen
  rw [if_neg (by simp [h8]), gtSplit_gt]
  rfl

theorem ccb_match' (s : List Char) (cls : Option (List Char))
    (afterOpen content after lang : List Char)
    (hpre : isPre (cs "<pre><code") s = true)
    (hopen : FileConverter.codeOpen (s.drop 10) = some (cls, afterOpen))
    (hsplit : splitFirst afterOpen (cs "</code></pre>") = some (content, after))
    (hlang : FileConverter.process_language cls = some lang) :
    FileConverter.convert_code_block s =
      (FileConverter.convert_code_block after).map
        (fun t => FileConverter.code_replacement lang content ++ t) := by
  cases s with
  | nil => simp [isPre] at hpre
  | cons c rest => exact ccb_match c rest cls afterOpen content after lang hpre hopen hsplit hlang

/-- **C1 (amended).**  The code-block pass replaces a `<pre><code ...>` block
with exactly one `code` macro (`theme=Midnight`, `linenumbers=true`,
`language=<lang>` in that order, CDATA plain-text body with the four entities
unescaped) where `<lang>` is the substring after the last hyphen of the class
attribute value (`process_language`), or `none` when no class attribute is
present; the surrounding text is untouched.  (As stated in the original claim
this fails when a class attribute is present whose value has no hyphen: there
the pass raises `IndexError` instead of producing a macro — see the
counterexample.) -/
theorem claim_C1 (A cls B C lang : List Char)
    (hA : noMatchWithin (cs "<pre><code") A = true)
    (hcls : ∀ ch ∈ cls, ch ≠ '"')
    (hlang : FileConverter.process_language (some cls) = some lang)
    (hB : noMatchWithin (cs "</code></pre>") B = true)
    (hC : hasSubB (cs "<pre><code") C = false) :
    FileConverter.convert_code_block
        (A ++ cs "<pre><code class=\"" ++ cls ++ cs "\">" ++ B ++ cs "</code></pre>" ++ C) =
      some (A ++ FileConverter.code_replacement lang B ++ C) ∧
    FileConverter.convert_code_block
        (A ++ cs "<pre><code>" ++ B ++ cs "</code></pre>" ++ C) =
      some (A ++ FileConverter.code_replacement (cs "none") B ++ C) := by
  constructor
  · have hshape : A ++ cs "<pre><code class=\"" ++ cls ++ cs "\">" ++ B ++ cs "</code></pre>" ++ C =
        A ++ (cs "<pre><code" ++ (cs " class=\"" ++ (cls ++ ('"' :: '>' :: (B ++ cs "</code></pre>" ++ C))))) := by
      have h1 : cs "<pre><code class=\"" = cs "<pre><code" ++ cs " class=\"" := rfl
      have h2 : cs "\">" = ['"', '>'] := rfl
      rw [h1, h2]
      simp
    rw [hshape]
    rw [ccb_append A _ hA]
    have hX : FileConverter.convert_code_block
        (cs "<pre><code" ++ (cs " class=\"" ++ (cls ++ ('"' :: '>' :: (B ++ cs "</code></pre>" ++ C))))) =
        (FileConverter.convert_code_block C).map
          (fun t => FileConverter.code_replacement lang B ++ t) := by
      apply ccb_match' _ (some cls) (B ++ cs "</code></pre>" ++ C) B C lang
      · exact isPre_refl_append _ _
      · have h10 : (10 : Nat) = (cs "<pre><code").length := rfl
        rw [h10, List.drop_left]
        have : cs " class=\"" ++ (cls ++ ('"' :: '>' :: (B ++ cs "</code></pre>" ++ C))) =
            cs " class=\"" ++ cls ++ '"' :: '>' :: (B ++ cs "</code></pre>" ++ C) := by
          simp
        rw [this, codeOpen_class cls _ hcls]
      · exact splitFirst_exact (cs "</code></pre>") B C (by decide) hB
      · exact hlang
    rw [hX, ccb_self C hC]
    simp
  · have hshape : A ++ cs "<pre><code>" ++ B ++ cs "</code></pre>" ++ C =
        A ++ (cs "<pre><code" ++ ('>' :: (B ++ cs "</code></pre>" ++ C))) := by
      have h1 : cs "<pre><code>" = cs "<pre><code" ++ ['>'] := rfl
      rw [h1]
      simp
    rw [hshape]
    rw [ccb_append A _ hA]
    have hX : FileConverter.convert_code_block
        (cs "<pre><code" ++ ('>' :: (B ++ cs "</code></pre>" ++ C))) =
        (FileConverter.convert_code_block C).map
          (fun t => FileConverter.code_replacement (cs "none") B ++ t) := by
      apply ccb_match' _ none (B ++ cs "</code></pre>" ++ C) B C (cs "none")
      · exact isPre_refl_append _ _
      · have h10 : (10 : Nat) = (cs "<pre><code").length := rfl
        rw [h10, List.drop_left]
        rw [codeOpen_noclass]
      · exact splitFirst_exact (cs "</code></pre>") B C (by decide) hB
      · rfl
    rw [hX, ccb_self C hC]
    simp

/-- **C1 counterexample.**  For the input
`<pre><code class="python">x</code></pre>` (class attribute present, no hyphen
in its value) the pass does not replace the block with a code macro: the
language extraction `lang.rsplit('-', 1)[1]` raises `IndexError` (modelled as
`none`). -/
theorem claim_C1_counterexample :
    FileConverter.convert_code_block (cs "<pre><code class=\"python\">x</code></pre>") =
      none := by decide

/-- **C1 witness.**  The amended theorem applied at a concrete input. -/
theorem claim_C1_witness :
    FileConverter.convert_code_block
        (cs "<p>Intro</p>" ++ cs "<pre><code class=\"" ++ cs "language-python" ++ cs "\">" ++
          cs "x = 1" ++ cs "</code></pre>" ++ cs "<p>t</p>") =
      some (cs "<p>Intro</p>" ++ FileConverter.code_replacement (cs "python") (cs "x = 1") ++
        cs "<p>t</p>") ∧
    FileConverter.convert_code_block
        (cs "<p>Intro</p>" ++ cs "<pre><code>" ++ cs "x = 1" ++ cs "</code></pre>" ++
          cs "<p>t</p>") =
      some (cs "<p>Intro</p>" ++ FileConverter.code_replacement (cs "none") (cs "x = 1") ++
        cs "<p>t</p>") :=
  claim_C1 (cs "<p>Intro</p>") (cs "language-python") (cs "x = 1") (cs "<p>t</p>")
    (cs "python") (by decide) (by decide) (by decide) (by decide) (by decide)

/-! ## The link pass (`FileConverter._convert_links`)

Models `content.replace(".md\"", "\"").replace(".html#", "#")` followed by
`re.sub(r'(?P<start>\<a[^>]* href=\")(?P<link>[a-zA-Z]+[\_][a-zA-Z]+)'
`r'(?P<end>\"[^>]*\>)', _replace_underscores, content)`.

A match of the anchor pattern spans `<a`, the maximal run `R` of non-`>`
characters after it, and the `>` that follows; within `R` the greedy `[^>]*`
backtracks from the right, so the engine uses the rightmost occurrence of
` href="` in `R` whose following text parses as `letters+ '_' letters+ '"'`. -/

namespace FileConverter

/-- `[a-zA-Z]`. -/
def isAsciiAlpha (c : Char) : Bool :=
  ('a' ≤ c && c ≤ 'z') || ('A' ≤ c && c ≤ 'Z')

/-- Parse `[a-zA-Z]+_[a-zA-Z]+"` at the start of `t`; returns the two words
and the rest after the closing quote. -/
def parseLink (t : List Char) : Option (List Char × List Char × List Char) :=
  let w1 := t.takeWhile isAsciiAlpha
  if w1.isEmpty then none
  else
    let t1 := t.drop w1.length
    if isPre (cs "_") t1 then
      let t2 := t1.drop 1
      let w2 := t2.takeWhile isAsciiAlpha
      if w2.isEmpty then none
      else
        let t3 := t2.drop w2.length
        if isPre (cs "\"") t3 then some (w1, w2, t3.drop 1) else none
    else none

/-- Rightmost occurrence of ` href="` in `R` whose value parses as
`letters_letters"`; returns (characters before the occurrence, first word,
second word, characters after the closing quote). -/
def findHref : List Char → Option (List Char × List Char × List Char × List Char)
  | [] => none
  | c :: rest =>
    match findHref rest with
    | some q => some (c :: q.1, q.2.1, q.2.2.1, q.2.2.2)
    | none =>
      if isPre (cs " href=\"") (c :: rest) then
        match parseLink ((c :: rest).drop 7) with
        | some (w1, w2, a) => some ([], w1, w2, a)
        | none => none
      else none

/-- Try the anchor pattern at the current position; returns the replacement
text and the number of consumed characters. -/
def matchLinkAt (s : List Char) : Option (List Char × Nat) :=
  if isPre (cs "<a") s then
    let r := s.drop 2
    let R := r.takeWhile (fun c => c ≠ '>')
    if R.length < r.length then
      match findHref R with
      | some (b, w1, w2, a) =>
        some (cs "<a" ++ b ++ cs " href=\"" ++ w1 ++ cs " " ++ w2 ++ cs "\"" ++ a ++ cs ">",
          2 + R.length + 1)
      | none => none
    else none
  else none

/-- The scanning loop of the anchor `re.sub`. -/
def scanLinksF : Nat → List Char → List Char
  | _, [] => []
  | 0, s => s
  | fuel + 1, c :: rest =>
    match matchLinkAt (c :: rest) with
    | some q => q.1 ++ scanLinksF fuel ((c :: rest).drop q.2)
    | none => c :: scanLinksF fuel rest

/-- `FileConverter._convert_links`. -/
def convert_links (content : List Char) : List Char :=
  let c1 := replaceAll (replaceAll content (cs ".md\"") (cs "\"")) (cs ".html#") (cs "#")
  scanLinksF c1.length c1

end FileConverter

example : FileConverter.convert_links (cs "<a href=\"foo_bar\">x</a>") =
    cs "<a href=\"foo bar\">x</a>" := by decide

example : FileConverter.convert_links (cs "<a href=\"foo_bar_baz\">x</a>") =
    cs "<a href=\"foo_bar_baz\">x</a>" := by decide

example : FileConverter.convert_links (cs "see page.md\" and p.html#frag") =
    cs "see page\" and p#frag" := by decide

example : FileConverter.convert_links (cs "<a class=\"z\" href=\"a_b\">t</a>") =
    cs "<a class=\"z\" href=\"a b\">t</a>" := by decide

/-! ## Link pass lemmas -/

theorem matchLinkAt_consumed (s : List Char) (q : List Char × Nat)
    (h : FileConverter.matchLinkAt s = some q) : 1 ≤ q.2 ∧ q.2 ≤ s.length := by
  unfold FileConverter.matchLinkAt at h
  by_cases h2 : isPre (cs "<a") s = true
  · rw [if_pos h2] at h
    by_cases hR : ((s.drop 2).takeWhile (fun c => c ≠ '>')).length < (s.drop 2).length
    · rw [if_pos hR] at h
      cases hf : FileConverter.findHref ((s.drop 2).takeWhile (fun c => c ≠ '>')) with
      | none => rw [hf] at h; cases h
      | some t =>
        rw [hf] at h
        simp only [Option.some.injEq] at h
        have h2' : q.2 = 2 + ((s.drop 2).takeWhile (fun c => c ≠ '>')).length + 1 :=
          (congrArg Prod.snd h).symm
        have hlen : 2 ≤ s.length := by
          rw [isPre_eq_true_iff] at h2
          have := h2.length_le
          simpa [cs] using this
        simp only [List.length_drop] at hR
        omega
    · rw [if_neg hR] at h
      cases h
  · rw [if_neg h2] at h
    cases h

theorem scanLinksF_fuel : ∀ f g s, s.length ≤ f → s.length ≤ g →
    FileConverter.scanLinksF f s = FileConverter.scanLinksF g s := by
  intro f
  induction f with
  | zero =>
    intro g s hf _
    have : s = [] := List.eq_nil_of_length_eq_zero (Nat.le_zero.mp hf)
    subst this
    cases g <;> rfl
  | succ f ih =>
    intro g s hf hg
    cases s with
    | nil => cases g <;> rfl
    | cons c rest =>
      cases g with
      | zero => simp at hg
      | succ g =>
        simp only [List.length_cons] at hf hg
        simp only [FileConverter.scanLinksF]
        cases hm : FileConverter.matchLinkAt (c :: rest) with
        | none => rw [ih g rest (by omega) (by omega)]
        | some q =>
          have := matchLinkAt_consumed (c :: rest) q hm
          simp only [List.length_cons] at this
          have hd : ((c :: rest).drop q.2).length ≤ f := by
            simp only [List.length_drop, List.length_cons]
            omega
          have hd2 : ((c :: rest).drop q.2).length ≤ g := by
            simp only [List.length_drop, List.length_cons]
            omega
          dsimp only
          rw [ih g _ hd hd2]

/-- The `re.sub` stage of the link pass on its own. -/
def scanLinks (s : List Char) : List Char :=
  FileConverter.scanLinksF s.length s

theorem convert_links_eq (content : List Char) :
    FileConverter.convert_links content =
      scanLinks (replaceAll (replaceAll content (cs ".md\"") (cs "\"")) (cs ".html#") (cs "#")) :=
  rfl

theorem scanLinks_cons_no (c : Char) (rest : List Char)
    (h : FileConverter.matchLinkAt (c :: rest) = none) :
    scanLinks (c :: rest) = c :: scanLinks rest := by
  show FileConverter.scanLinksF (rest.length + 1) (c :: rest) = _
  simp only [FileConverter.scanLinksF, h]
  rfl

theorem matchLinkAt_none_of_not_lt (c : Char) (rest : List Char)
    (h : isPre (cs "<a") (c :: rest) = false) :
    FileConverter.matchLinkAt (c :: rest) = none := by
  unfold FileConverter.matchLinkAt
  rw [if_neg (by simp [h])]

theorem scanLinks_append (a b : List Char) (ha : noMatchWithin (cs "<a") a = true) :
    scanLinks (a ++ b) = a ++ scanLinks b := by
  induction a with
  | nil => rfl
  | cons c rest ih =>
    simp only [noMatchWithin, Bool.and_eq_true] at ha
    have h1 : isPre (cs "<a") (c :: (rest ++ b)) = false := by
      have := failsIn_sound _ (c :: rest) ha.1 b
      simpa using this
    simp only [List.cons_append]
    rw [scanLinks_cons_no c (rest ++ b) (matchLinkAt_none_of_not_lt _ _ h1), ih ha.2]

theorem scanLinks_self (s : List Char) (h : hasSubB (cs "<a") s = false) :
    scanLinks s = s := by
  induction s with
  | nil => rfl
  | cons c rest ih =>
    simp only [hasSubB, Bool.or_eq_false_iff] at h
    rw [scanLinks_cons_no c rest (matchLinkAt_none_of_not_lt _ _ h.1), ih h.2]

theorem scanLinks_match (s : List Char) (q : List Char × Nat)
    (h : FileConverter.matchLinkAt s = some q) :
    scanLinks s = q.1 ++ scanLinks (s.drop q.2) := by
  cases s with
  | nil =>
    unfold FileConverter.matchLinkAt at h
    rw [if_neg (by simp [isPre, cs])] at h
    cases h
  | cons c rest =>
    show FileConverter.scanLinksF (rest.length + 1) (c :: rest) = _
    simp only [FileConverter.scanLinksF, h]
    have := matchLinkAt_consumed (c :: rest) q h
    simp only [List.length_cons] at this
    congr 1
    apply scanLinksF_fuel
    · simp only [List.length_drop, List.length_cons]
      omega
    · exact Nat.le_refl _

theorem alpha_ne_of_not_alpha (c d : Char) (h : FileConverter.isAsciiAlpha c = true)
    (hd : FileConverter.isAsciiAlpha d = false) : c ≠ d := by
  intro he
  subst he
  rw [h] at hd
  cases hd

theorem findHref_none_of_no_space (t : List Char) (h : ∀ c ∈ t, c ≠ ' ') :
    FileConverter.findHref t = none := by
  induction t with
  | nil => rfl
  | cons c rest ih =>
    unfold FileConverter.findHref
    rw [ih (fun x hx => h x (List.mem_cons_of_mem c hx))]
    have hc : c ≠ ' ' := h c (List.mem_cons_self c rest)
    have hpre : isPre (cs " href=\"") (c :: rest) = false := by
      have hsp : cs " href=\"" = ' ' :: cs "href=\"" := rfl
      rw [hsp]
      simp only [isPre, Bool.and_eq_false_iff]
      left
      simp [Ne.symm hc]
    rw [hpre]
    rfl

theorem parseLink_words (w1 w2 tail3 : List Char) (hw1 : w1 ≠ [])
    (hw1a : ∀ c ∈ w1, FileConverter.isAsciiAlpha c = true) (hw2 : w2 ≠ [])
    (hw2a : ∀ c ∈ w2, FileConverter.isAsciiAlpha c = true) :
    FileConverter.parseLink (w1 ++ '_' :: (w2 ++ '"' :: tail3)) = some (w1, w2, tail3) := by
  have hus : FileConverter.isAsciiAlpha '_' = false := by decide
  have hqs : FileConverter.isAsciiAlpha '"' = false := by decide
  have htw1 : (w1 ++ '_' :: (w2 ++ '"' :: tail3)).takeWhile FileConverter.isAsciiAlpha = w1 := by
    rw [takeWhile_append_all _ w1 _ hw1a]
    simp [List.takeWhile_cons, hus]
  have hdrop : (w1 ++ '_' :: (w2 ++ '"' :: tail3)).drop w1.length = '_' :: (w2 ++ '"' :: tail3) :=
    List.drop_left _ _
  have htw2 : (w2 ++ '"' :: tail3).takeWhile FileConverter.isAsciiAlpha = w2 := by
    rw [takeWhile_append_all _ w2 _ hw2a]
    simp [List.takeWhile_cons, hqs]
  have hdrop2 : (w2 ++ '"' :: tail3).drop w2.length = '"' :: tail3 := List.drop_left _ _
  have hu : isPre (cs "_") ('_' :: (w2 ++ '"' :: tail3)) = true := by
    have h1 : cs "_" = ['_'] := rfl
    rw [h1]
    simp [isPre]
  have hq : isPre (cs "\"") ('"' :: tail3) = true := by
    have h1 : cs "\"" = ['"'] := rfl
    rw [h1]
    simp [isPre]
  unfold FileConverter.parseLink
  rw [htw1]
  dsimp only
  rw [if_neg (by simpa [List.isEmpty_iff] using hw1), hdrop, if_pos hu]
  have hdrop1 : ('_' :: (w2 ++ '"' :: tail3)).drop 1 = w2 ++ '"' :: tail3 := rfl
  rw [hdrop1, htw2]
  rw [if_neg (by simpa [List.isEmpty_iff] using hw2), hdrop2, if_pos hq]
  rfl

theorem findHref_anchor (attrs w1 w2 : List Char)
    (hw1 : w1 ≠ []) (hw1a : ∀ c ∈ w1, FileConverter.isAsciiAlpha c = true)
    (hw2 : w2 ≠ []) (hw2a : ∀ c ∈ w2, FileConverter.isAsciiAlpha c = true) :
    FileConverter.findHref (attrs ++ (cs " href=\"" ++ (w1 ++ '_' :: (w2 ++ ['"'])))) =
      some (attrs, w1, w2, []) := by
  have hsp : FileConverter.isAsciiAlpha ' ' = false := by decide
  induction attrs with
  | nil =>
    simp only [List.nil_append]
    have hsplit : cs " href=\"" ++ (w1 ++ '_' :: (w2 ++ ['"'])) =
        ' ' :: (cs "href=\"" ++ (w1 ++ '_' :: (w2 ++ ['"']))) := rfl
    rw [hsplit]
    unfold FileConverter.findHref
    have hnone : FileConverter.findHref (cs "href=\"" ++ (w1 ++ '_' :: (w2 ++ ['"']))) = none := by
      apply findHref_none_of_no_space
      intro c hc
      rcases List.mem_append.mp hc with hc | hc
      · have hdec : ∀ x ∈ cs "href=\"", x ≠ ' ' := by decide
        exact hdec c hc
      · rcases List.mem_append.mp hc with hc | hc
        · exact alpha_ne_of_not_alpha c ' ' (hw1a c hc) hsp
        · rcases List.mem_cons.mp hc with hc | hc
          · subst hc; decide
          · rcases List.mem_append.mp hc with hc | hc
            · exact alpha_ne_of_not_alpha c ' ' (hw2a c hc) hsp
            · rcases List.mem_cons.mp hc with hc | hc
              · subst hc; decide
              · cases hc
    rw [hnone]
    have hpre : isPre (cs " href=\"")
        (' ' :: (cs "href=\"" ++ (w1 ++ '_' :: (w2 ++ ['"'])))) = true := by
      have h1 : ' ' :: (cs "href=\"" ++ (w1 ++ '_' :: (w2 ++ ['"']))) =
          cs " href=\"" ++ (w1 ++ '_' :: (w2 ++ ['"'])) := rfl
      rw [h1]
      exact isPre_refl_append _ _
    rw [hpre]
    dsimp only
    have hdrop7 : (' ' :: (cs "href=\"" ++ (w1 ++ '_' :: (w2 ++ ['"'])))).drop 7 =
        w1 ++ '_' :: (w2 ++ ['"']) := by
      have h1 : ' ' :: (cs "href=\"" ++ (w1 ++ '_' :: (w2 ++ ['"']))) =
          cs " href=\"" ++ (w1 ++ '_' :: (w2 ++ ['"'])) := rfl
      have h7 : (7 : Nat) = (cs " href=\"").length := rfl
      rw [h1, h7, List.drop_left]
    rw [hdrop7]
    have hw : w1 ++ '_' :: (w2 ++ ['"']) = w1 ++ '_' :: (w2 ++ '"' :: []) := rfl
    rw [hw, parseLink_words w1 w2 [] hw1 hw1a hw2 hw2a]
    rfl
  | cons c rest ih =>
    simp only [List.cons_append]
    unfold FileConverter.findHref
    rw [ih]

theorem matchLinkAt_anchor (attrs w1 w2 post : List Char)
    (hattrs : ∀ c ∈ attrs, c ≠ '>')
    (hw1 : w1 ≠ []) (hw1a : ∀ c ∈ w1, FileConverter.isAsciiAlpha c = true)
    (hw2 : w2 ≠ []) (hw2a : ∀ c ∈ w2, FileConverter.isAsciiAlpha c = true) :
    FileConverter.matchLinkAt
        (cs "<a" ++ (attrs ++ (cs " href=\"" ++ (w1 ++ '_' :: (w2 ++ '"' :: ('>' :: post)))))) =
      some (cs "<a" ++ attrs ++ cs " href=\"" ++ w1 ++ cs " " ++ w2 ++ cs "\"" ++ [] ++ cs ">",
        2 + (attrs ++ (cs " href=\"" ++ (w1 ++ '_' :: (w2 ++ ['"'])))).length + 1) := by
  have hgt : FileConverter.isAsciiAlpha '>' = false := by decide
  have hx : attrs ++ (cs " href=\"" ++ (w1 ++ '_' :: (w2 ++ '"' :: ('>' :: post)))) =
      (attrs ++ (cs " href=\"" ++ (w1 ++ '_' :: (w2 ++ ['"'])))) ++ ('>' :: post) := by
    simp
  have hF : ∀ c ∈ attrs ++ (cs " href=\"" ++ (w1 ++ '_' :: (w2 ++ ['"']))),
      (fun c => decide (c ≠ '>')) c = true := by
    intro c hc
    simp only [decide_eq_true_eq]
    rcases List.mem_append.mp hc with hc | hc
    · exact hattrs c hc
    · rcases List.mem_append.mp hc with hc | hc
      · have hdec : ∀ x ∈ cs " href=\"", x ≠ '>' := by decide
        exact hdec c hc
      · rcases List.mem_append.mp hc with hc | hc
        · exact alpha_ne_of_not_alpha c '>' (hw1a c hc) hgt
        · rcases List.mem_cons.mp hc with hc | hc
          · subst hc; decide
          · rcases List.mem_append.mp hc with hc | hc
            · exact alpha_ne_of_not_alpha c '>' (hw2a c hc) hgt
            · rcases List.mem_cons.mp hc with hc | hc
              · subst hc; decide
              · cases hc
  unfold FileConverter.matchLinkAt
  rw [if_pos (isPre_refl_append (cs "<a") _)]
  have hdrop2 : (cs "<a" ++ (attrs ++ (cs " href=\"" ++ (w1 ++ '_' :: (w2 ++ '"' :: ('>' :: post)))))).drop 2 =
      attrs ++ (cs " href=\"" ++ (w1 ++ '_' :: (w2 ++ '"' :: ('>' :: post)))) := by
    have h2 : (2 : Nat) = (cs "<a").length := rfl
    rw [h2, List.drop_left]
  rw [hdrop2, hx]
  dsimp only
  have htwR : ((attrs ++ (cs " href=\"" ++ (w1 ++ '_' :: (w2 ++ ['"'])))) ++ ('>' :: post)).takeWhile
      (fun c => decide (c ≠ '>')) = attrs ++ (cs " href=\"" ++ (w1 ++ '_' :: (w2 ++ ['"']))) := by
    rw [takeWhile_append_all _ _ _ hF]
    simp [List.takeWhile_cons]
  rw [htwR]
  rw [if_pos (by simp)]
  rw [findHref_anchor attrs w1 w2 hw1 hw1a hw2 hw2a]

/-- **C4.**  The link pass first replaces every literal `.md"` by `"` and every
`.html#` by `#`, and then, for every anchor tag whose `href` value matches
`letters_letters` (exactly one underscore joining two all-letter words),
replaces the underscore by a single space in the href value, leaving the rest
of the tag (and the surrounding text) unchanged. -/
theorem claim_C4 :
    (∀ x y : List Char,
      noMatchWithin (cs ".md\"") x = true →
      hasSubB (cs ".md\"") y = false →
      hasSubB (cs ".html#") (x ++ cs "\"" ++ y) = false →
      hasSubB (cs "<a") (x ++ cs "\"" ++ y) = false →
      FileConverter.convert_links (x ++ cs ".md\"" ++ y) = x ++ cs "\"" ++ y) ∧
    (∀ x y : List Char,
      hasSubB (cs ".md\"") (x ++ cs ".html#" ++ y) = false →
      noMatchWithin (cs ".html#") x = true →
      hasSubB (cs ".html#") y = false →
      hasSubB (cs "<a") (x ++ cs "#" ++ y) = false →
      FileConverter.convert_links (x ++ cs ".html#" ++ y) = x ++ cs "#" ++ y) ∧
    (∀ pre attrs w1 w2 post : List Char,
      hasSubB (cs ".md\"")
        (pre ++ cs "<a" ++ attrs ++ cs " href=\"" ++ w1 ++ cs "_" ++ w2 ++ cs "\">" ++ post) = false →
      hasSubB (cs ".html#")
        (pre ++ cs "<a" ++ attrs ++ cs " href=\"" ++ w1 ++ cs "_" ++ w2 ++ cs "\">" ++ post) = false →
      noMatchWithin (cs "<a") pre = true →
      (∀ c ∈ attrs, c ≠ '>') →
      w1 ≠ [] → (∀ c ∈ w1, FileConverter.isAsciiAlpha c = true) →
      w2 ≠ [] → (∀ c ∈ w2, FileConverter.isAsciiAlpha c = true) →
      hasSubB (cs "<a") post = false →
      FileConverter.convert_links
          (pre ++ cs "<a" ++ attrs ++ cs " href=\"" ++ w1 ++ cs "_" ++ w2 ++ cs "\">" ++ post) =
        pre ++ cs "<a" ++ attrs ++ cs " href=\"" ++ w1 ++ cs " " ++ w2 ++ cs "\">" ++ post) := by
  refine ⟨?_, ?_, ?_⟩
  · intro x y hx hy h2 h3
    rw [convert_links_eq]
    have hstage1 : replaceAll (x ++ cs ".md\"" ++ y) (cs ".md\"") (cs "\"") =
        x ++ cs "\"" ++ y := by
      rw [List.append_assoc, replaceAll_append _ _ x _ hx,
        replaceAll_at_head _ _ _ (by decide), replaceAll_self _ _ y hy]
      simp
    rw [hstage1]
    have hstage2 : replaceAll (x ++ cs "\"" ++ y) (cs ".html#") (cs "#") =
        x ++ cs "\"" ++ y := replaceAll_self _ _ _ h2
    rw [hstage2]
    exact scanLinks_self _ h3
  · intro x y h1 hx hy h3
    rw [convert_links_eq]
    rw [replaceAll_self _ _ _ h1]
    have hstage2 : replaceAll (x ++ cs ".html#" ++ y) (cs ".html#") (cs "#") =
        x ++ cs "#" ++ y := by
      rw [List.append_assoc, replaceAll_append _ _ x _ hx,
        replaceAll_at_head _ _ _ (by decide), replaceAll_self _ _ y hy]
      simp
    rw [hstage2]
    exact scanLinks_self _ h3
  · intro pre attrs w1 w2 post h1 h2 hpre hattrs hw1 hw1a hw2 hw2a hpost
    rw [convert_links_eq]
    rw [replaceAll_self _ _ _ h1, replaceAll_self _ _ _ h2]
    have hshape : pre ++ cs "<a" ++ attrs ++ cs " href=\"" ++ w1 ++ cs "_" ++ w2 ++ cs "\">" ++ post =
        pre ++ (cs "<a" ++ (attrs ++ (cs " href=\"" ++ (w1 ++ '_' :: (w2 ++ '"' :: ('>' :: post)))))) := by
      have hu : cs "_" = ['_'] := rfl
      have hq : cs "\">" = ['"', '>'] := rfl
      rw [hu, hq]
      simp
    rw [hshape]
    rw [scanLinks_append pre _ hpre]
    rw [scanLinks_match _ _ (matchLinkAt_anchor attrs w1 w2 post hattrs hw1 hw1a hw2 hw2a)]
    have hdropn : (cs "<a" ++ (attrs ++ (cs " href=\"" ++ (w1 ++ '_' :: (w2 ++ '"' :: ('>' :: post)))))).drop
        (2 + (attrs ++ (cs " href=\"" ++ (w1 ++ '_' :: (w2 ++ ['"'])))).length + 1) = post := by
      have hform : cs "<a" ++ (attrs ++ (cs " href=\"" ++ (w1 ++ '_' :: (w2 ++ '"' :: ('>' :: post))))) =
          (cs "<a" ++ (attrs ++ (cs " href=\"" ++ (w1 ++ '_' :: (w2 ++ ['"'])))) ++ ['>']) ++ post := by
        simp
      have hn : (cs "<a" ++ (attrs ++ (cs " href=\"" ++ (w1 ++ '_' :: (w2 ++ ['"'])))) ++ ['>']).length =
          2 + (attrs ++ (cs " href=\"" ++ (w1 ++ '_' :: (w2 ++ ['"'])))).length + 1 := by
        simp [cs]
        omega
      rw [hform, ← hn, List.drop_left]
    rw [hdropn]
    rw [scanLinks_self post hpost]
    simp
    rfl

/-- **C4 witness.**  The three parts of the claim applied at concrete inputs. -/
theorem claim_C4_witness :
    FileConverter.convert_links (cs "href=\"page" ++ cs ".md\"" ++ cs ">link") =
      cs "href=\"page" ++ cs "\"" ++ cs ">link" ∧
    FileConverter.convert_links (cs "see p" ++ cs ".html#" ++ cs "sec") =
      cs "see p" ++ cs "#" ++ cs "sec" ∧
    FileConverter.convert_links
        (cs "<p>go </p>" ++ cs "<a" ++ cs " class=\"big\"" ++ cs " href=\"" ++ cs "foo" ++
          cs "_" ++ cs "bar" ++ cs "\">" ++ cs "<b>t</b>") =
      cs "<p>go </p>" ++ cs "<a" ++ cs " class=\"big\"" ++ cs " href=\"" ++ cs "foo" ++
        cs " " ++ cs "bar" ++ cs "\">" ++ cs "<b>t</b>" :=
  ⟨claim_C4.1 (cs "href=\"page") (cs ">link") (by decide) (by decide) (by decide) (by decide),
   claim_C4.2.1 (cs "see p") (cs "sec") (by decide) (by decide) (by decide) (by decide),
   claim_C4.2.2 (cs "<p>go </p>") (cs " class=\"big\"") (cs "foo") (cs "bar") (cs "<b>t</b>")
     (by decide) (by decide) (by decide) (by decide) (by decide) (by decide) (by decide)
     (by decide) (by decide)⟩

/-! ## The admonition pass (`FileConverter._convert_info_macros`)

Custom `~?`/`~!`/`~%` markers are literal replaces; blockquotes found by
`re.findall('<blockquote>(.*?)</blockquote>', content, re.DOTALL)` are
classified by `re.search('^<.*>Note', quote.strip(), re.IGNORECASE)` (and
`Warning`), stripped by `_strip_type` and replaced by value; a doctoc comment
block is replaced by the fixed `toc` macro.

Note that in `_strip_type` the source passes `re.IGNORECASE` as the third
positional argument of `re.sub`, which is the *count* parameter (with value
2), not a flag: each of the eight label-stripping substitutions is
case-sensitive and capped at two replacements.  The classification searches
pass `re.IGNORECASE` as the third positional argument of `re.search`, which
*is* the flags parameter, so classification is genuinely case-insensitive. -/

namespace FileConverter

def info_tag : List Char :=
  cs "<p><ac:structured-macro ac:name=\"info\"><ac:rich-text-body><p>"

def note_tag : List Char := replaceAll info_tag (cs "info") (cs "note")

def warning_tag : List Char := replaceAll info_tag (cs "info") (cs "warning")

def close_tag : List Char := cs "</p></ac:rich-text-body></ac:structured-macro></p>"

/-- Case-insensitive prefix test (ASCII lowering, as `re.IGNORECASE`). -/
def ciPrefix : List Char → List Char → Bool
  | [], _ => true
  | _ :: _, [] => false
  | p :: ps, c :: rest => (c.toLower = p.toLower) && ciPrefix ps rest

/-- Scan the first line for a `>` followed by the word, case-insensitively:
the `.*>` part of `re.search('^<.*>Note', ...)`. -/
def classMatch (w : List Char) : List Char → Bool
  | [] => false
  | c :: rest =>
    if c = '\n' then false
    else ((c = '>') && ciPrefix w rest) || classMatch w rest

/-- `re.search('^<.*>Note', quote.strip(), re.IGNORECASE)` as a Bool. -/
def classify (q w : List Char) : Bool :=
  match pyStrip q with
  | '<' :: t => classMatch w t
  | _ => false

/-- `.*?>` plus a continuation: consume lazily up to a `>` (never across a
newline) such that the continuation matches after it; backtrack by extending
past a `>` whose continuation fails.  Returns the consumed length including
the `>` and the continuation. -/
def lazyGt (cont : List Char → Option Nat) : List Char → Option Nat
  | [] => none
  | c :: rest =>
    if c = '\n' then none
    else if c = '>' then
      match cont rest with
      | some k => some (1 + k)
      | none =>
        match lazyGt cont rest with
        | some k => some (1 + k)
        | none => none
    else
      match lazyGt cont rest with
      | some k => some (1 + k)
      | none => none

/-- Matcher for `word:\s` (pattern 1 of `_strip_type`). -/
def m1 (w : List Char) (s : List Char) : Option Nat :=
  if isPre (w ++ [':']) s then
    match s.drop (w.length + 1) with
    | c :: _ => if pyIsSpace c then some (w.length + 2) else none
    | [] => none
  else none

/-- Matcher for `word\s:\s` (pattern 2). -/
def m2 (w : List Char) (s : List Char) : Option Nat :=
  if isPre w s then
    match s.drop w.length with
    | c1 :: c2 :: c3 :: _ =>
      if pyIsSpace c1 && (c2 = ':') && pyIsSpace c3 then some (w.length + 3) else none
    | _ => none
  else none

/-- Continuation of pattern 3 after the first lazy tag: `word:\s<.*?>`. -/
def m3cont (w : List Char) (u : List Char) : Option Nat :=
  if isPre (w ++ [':']) u then
    match u.drop (w.length + 1) with
    | c :: rest2 =>
      if pyIsSpace c && isPre (cs "<") rest2 then
        (lazyGt (fun _ => some 0) (rest2.drop 1)).map (fun k => w.length + 3 + k)
      else none
    | [] => none
  else none

/-- Matcher for `<.*?>word:\s<.*?>` (pattern 3). -/
def m3 (w : List Char) (s : List Char) : Option Nat :=
  match s with
  | c :: rest => if c = '<' then (lazyGt (m3cont w) rest).map (fun k => 1 + k) else none
  | [] => none

/-- Continuation of pattern 4: `word\s:\s<.*?>`. -/
def m4cont (w : List Char) (u : List Char) : Option Nat :=
  if isPre w u then
    match u.drop w.length with
    | c1 :: c2 :: c3 :: rest2 =>
      if pyIsSpace c1 && (c2 = ':') && pyIsSpace c3 && isPre (cs "<") rest2 then
        (lazyGt (fun _ => some 0) (rest2.drop 1)).map (fun k => w.length + 4 + k)
      else none
    | _ => none
  else none

/-- Matcher for `<.*?>word\s:\s<.*?>` (pattern 4). -/
def m4 (w : List Char) (s : List Char) : Option Nat :=
  match s with
  | c :: rest => if c = '<' then (lazyGt (m4cont w) rest).map (fun k => 1 + k) else none
  | [] => none

/-- `<(em|strong)>` at the start of `s`: consumed length. -/
def emTag (s : List Char) : Option Nat :=
  if isPre (cs "<em>") s then some 4
  else if isPre (cs "<strong>") s then some 8
  else none

/-- Continuation `\s` after a lazy tag. -/
def contSpace (u : List Char) : Option Nat :=
  match u with
  | c :: _ => if pyIsSpace c then some 1 else none
  | [] => none

/-- Continuation `:\s` after a lazy tag. -/
def contColonSpace (u : List Char) : Option Nat :=
  match u with
  | c1 :: c2 :: _ => if (c1 = ':') && pyIsSpace c2 then some 2 else none
  | _ => none

/-- Matcher for `<(em|strong)>word:<.*?>\s` (pattern 5). -/
def m5 (w : List Char) (s : List Char) : Option Nat :=
  match emTag s with
  | some k =>
    let t := s.drop k
    if isPre (w ++ [':']) t then
      match t.drop (w.length + 1) with
      | c :: rest2 =>
        if c = '<' then
          (lazyGt contSpace rest2).map (fun j => k + w.length + 2 + j)
        else none
      | [] => none
    else none
  | none => none

/-- Matcher for `<(em|strong)>word\s:<.*?>\s` (pattern 6). -/
def m6 (w : List Char) (s : List Char) : Option Nat :=
  match emTag s with
  | some k =>
    let t := s.drop k
    if isPre w t then
      match t.drop w.length with
      | c1 :: c2 :: c3 :: rest2 =>
        if pyIsSpace c1 && (c2 = ':') && (c3 = '<') then
          (lazyGt contSpace rest2).map (fun j => k + w.length + 3 + j)
        else none
      | _ => none
    else none
  | none => none

/-- Matcher for `<(em|strong)>word<.*?>:\s` (pattern 7). -/
def m7 (w : List Char) (s : List Char) : Option Nat :=
  match emTag s with
  | some k =>
    let t := s.drop k
    if isPre w t then
      match t.drop w.length with
      | c :: rest2 =>
        if c = '<' then
          (lazyGt contColonSpace rest2).map (fun j => k + w.length + 1 + j)
        else none
      | [] => none
    else none
  | none => none

/-- Matcher for `<(em|strong)>word\s<.*?>:\s` (pattern 8). -/
def m8 (w : List Char) (s : List Char) : Option Nat :=
  match emTag s with
  | some k =>
    let t := s.drop k
    if isPre w t then
      match t.drop w.length with
      | c1 :: c2 :: rest2 =>
        if pyIsSpace c1 && (c2 = '<') then
          (lazyGt contColonSpace rest2).map (fun j => k + w.length + 2 + j)
        else none
      | _ => none
    else none
  | none => none

/-- `re.sub(pattern, '', string, count)`: replace the first `cnt` matches of
the matcher by the empty string, scanning left to right. -/
def subNF (m : List Char → Option Nat) : Nat → Nat → List Char → List Char
  | _, _, [] => []
  | 0, _, s => s
  | _ + 1, 0, s => s
  | fuel + 1, cnt + 1, c :: rest =>
    match m (c :: rest) with
    | some n => subNF m fuel cnt ((c :: rest).drop n)
    | none => c :: subNF m fuel (cnt + 1) rest

def subN (m : List Char → Option Nat) (cnt : Nat) (s : List Char) : List Char :=
  subNF m s.length cnt s

/-- Offset of the first `>` in the current line. -/
def gtPos : List Char → Option Nat
  | [] => none
  | c :: rest =>
    if c = '>' then some 0
    else if c = '\n' then none
    else (gtPos rest).map (fun k => k + 1)

/-- `re.search('<.*?>', tag).end()`: the index just past the `>` of the first
`<...>` tag (lazy, within one line); `none` when there is no match. -/
def searchTagEnd : List Char → Option Nat
  | [] => none
  | c :: rest =>
    if c = '<' then
      match gtPos rest with
      | some k => some (1 + k + 1)
      | none => (searchTagEnd rest).map (fun k => k + 1)
    else (searchTagEnd rest).map (fun k => k + 1)

/-- `_upper_chars` with a single index. -/
def upperAt : List Char → Nat → List Char
  | [], _ => []
  | c :: rest, 0 => c.toUpper :: rest
  | c :: rest, i + 1 => c :: upperAt rest i

/-- `FileConverter._strip_type` (`none` models the `AttributeError` raised
when `re.search('<.*?>', tag)` finds nothing). -/
def strip_type (q w : List Char) : Option (List Char) :=
  let t1 := subN (m1 w) 2 (pyStrip q)
  let t2 := subN (m2 w) 2 (pyStrip t1)
  let t3 := subN (m3 w) 2 t2
  let t4 := subN (m4 w) 2 t3
  let t5 := subN (m5 w) 2 t4
  let t6 := subN (m6 w) 2 t5
  let t7 := subN (m7 w) 2 t6
  let t8 := subN (m8 w) 2 t7
  match searchTagEnd t8 with
  | some e => some (upperAt t8 e)
  | none => none

/-- `re.findall('<blockquote>(.*?)</blockquote>', content, re.DOTALL)`. -/
def findQuotesF : Nat → List Char → List (List Char)
  | _, [] => []
  | 0, _ => []
  | fuel + 1, c :: rest =>
    if isPre (cs "<blockquote>") (c :: rest) then
      match splitFirst ((c :: rest).drop 12) (cs "</blockquote>") with
      | some (body, after) => body :: findQuotesF fuel after
      | none => findQuotesF fuel rest
    else findQuotesF fuel rest

def findQuotes (s : List Char) : List (List Char) := findQuotesF s.length s

/-- The macro markup one blockquote body is replaced by. -/
def quote_macro (q : List Char) : Option (List Char) :=
  if classify q (cs "note") then
    (strip_type q (cs "Note")).map (fun ct =>
      pyStrip (replaceAll (replaceAll ct (cs "<p>") note_tag) (cs "</p>") close_tag))
  else if classify q (cs "warning") then
    (strip_type q (cs "Warning")).map (fun ct =>
      pyStrip (replaceAll (replaceAll ct (cs "<p>") warning_tag) (cs "</p>") close_tag))
  else
    some (pyStrip (replaceAll (replaceAll q (cs "<p>") info_tag) (cs "</p>") close_tag))

def processQuotes : List (List Char) → List Char → Option (List Char)
  | [], content => some content
  | q :: rest, content =>
    match quote_macro q with
    | some mt =>
      processQuotes rest (replaceAll content (cs "<blockquote>" ++ q ++ cs "</blockquote>") mt)
    | none => none

/-- The fixed `toc` macro markup, exactly as in the source (a triple-quoted
Python string including its newlines and indentation). -/
def toc_tag : List Char :=
  cs "<p>\n        <ac:structured-macro ac:name=\"toc\">\n          <ac:parameter ac:name=\"printable\">true</ac:parameter>\n          <ac:parameter ac:name=\"style\">disc</ac:parameter>\n          <ac:parameter ac:name=\"maxLevel\">7</ac:parameter>\n          <ac:parameter ac:name=\"minLevel\">1</ac:parameter>\n          <ac:parameter ac:name=\"type\">list</ac:parameter>\n          <ac:parameter ac:name=\"outline\">clear</ac:parameter>\n          <ac:parameter ac:name=\"include\">.*</ac:parameter>\n        </ac:structured-macro>\n        </p>"

/-- Split at the last occurrence of `pat`. -/
def splitLastF : Nat → List Char → List Char → Option (List Char × List Char)
  | 0, _, _ => none
  | fuel + 1, s, pat =>
    match splitFirst s pat with
    | none => none
    | some (a, b) =>
      match splitLastF fuel b pat with
      | none => some (a, b)
      | some (a2, b2) => some (a ++ pat ++ a2, b2)

def splitLast (s pat : List Char) : Option (List Char × List Char) :=
  splitLastF (s.length + 1) s pat

/-- `FileConverter._convert_doctoc`: the greedy DOTALL `re.sub` replaces from
the first `<!-- START doctoc` to the last `END doctoc -->` after it. -/
def convert_doctoc (content : List Char) : List Char :=
  match splitFirst content (cs "<!-- START doctoc") with
  | none => content
  | some (a, b) =>
    match splitLast b (cs "END doctoc -->") with
    | none => content
    | some (_, c) => a ++ toc_tag ++ c

/-- `FileConverter._convert_info_macros`. -/
def convert_info_macros (content : List Char) : Option (List Char) :=
  let c1 := replaceAll (replaceAll content (cs "<p>~?") info_tag) (cs "?~</p>") close_tag
  let c2 := replaceAll (replaceAll c1 (cs "<p>~!") note_tag) (cs "!~</p>") close_tag
  let c3 := replaceAll (replaceAll c2 (cs "<p>~%") warning_tag) (cs "%~</p>") close_tag
  (processQuotes (findQuotes c3) c3).map convert_doctoc

end FileConverter

example : FileConverter.note_tag =
    cs "<p><ac:structured-macro ac:name=\"note\"><ac:rich-text-body><p>" := by decide

example : FileConverter.convert_info_macros (cs "<blockquote><p>Note: text</p></blockquote>") =
    some (cs "<p><ac:structured-macro ac:name=\"note\"><ac:rich-text-body><p>Text</p></ac:rich-text-body></ac:structured-macro></p>") := by decide

example : FileConverter.convert_info_macros (cs "<blockquote><p>note: text</p></blockquote>") =
    some (cs "<p><ac:structured-macro ac:name=\"note\"><ac:rich-text-body><p>Note: text</p></ac:rich-text-body></ac:structured-macro></p>") := by decide

example : FileConverter.convert_info_macros (cs "<blockquote><p><em>Note:</em> text</p></blockquote>") =
    some (cs "<p><ac:structured-macro ac:name=\"note\"><ac:rich-text-body><p>Text</p></ac:rich-text-body></ac:structured-macro></p>") := by decide

example : FileConverter.convert_info_macros (cs "<blockquote><p>plain quote</p></blockquote>") =
    some (cs "<p><ac:structured-macro ac:name=\"info\"><ac:rich-text-body><p>plain quote</p></ac:rich-text-body></ac:structured-macro></p>") := by decide

example : FileConverter.convert_info_macros (cs "<p>~?tip?~</p>") =
    some (FileConverter.info_tag ++ cs "tip" ++ FileConverter.close_tag) := by decide

example : FileConverter.convert_info_macros (cs "no admonitions at all") =
    some (cs "no admonitions at all") := by decide

/-! ## The footnote reference pass (`FileConverter._convert_references`)

Models `re.findall('\n(\[\^(\d)\].*)|<p>(\[\^(\d)\].*)', content)` followed by
the per-reference loop: strip paragraph tags from the matched definition
(twice for the newline branch, once for the `<p>` branch), delete it from the
body by value, extract the first `href="..."` (an unguarded
`re.search(...).group(1)`, `none` models the raised `AttributeError`), and
substitute every inline `[^N]` by a superscript anchor. -/

namespace FileConverter

/-- `\[\^(\d)\]` at the start of `u`. -/
def refHead (u : List Char) : Option Char :=
  if isPre (cs "[^") u then
    match u.drop 2 with
    | d :: e :: _ => if d.isDigit && (e = ']') then some d else none
    | _ => none
  else none

/-- The `re.findall` scan: each match is (newline-branch?, captured group,
digit id); the group runs to the end of the line. -/
def findRefsF : Nat → List Char → List (Bool × List Char × Char)
  | _, [] => []
  | 0, _ => []
  | fuel + 1, c :: rest =>
    if c = '\n' then
      match refHead rest with
      | some d =>
        let raw := rest.takeWhile (fun x => x ≠ '\n')
        (true, raw, d) :: findRefsF fuel ((c :: rest).drop (1 + raw.length))
      | none => findRefsF fuel rest
    else if isPre (cs "<p>") (c :: rest) then
      match refHead ((c :: rest).drop 3) with
      | some d =>
        let raw := ((c :: rest).drop 3).takeWhile (fun x => x ≠ '\n')
        (false, raw, d) :: findRefsF fuel ((c :: rest).drop (3 + raw.length))
      | none => findRefsF fuel rest
    else findRefsF fuel rest

def findRefs (s : List Char) : List (Bool × List Char × Char) := findRefsF s.length s

/-- `.replace('</p>', '').replace('<p>', '')`. -/
def stripP (s : List Char) : List Char :=
  replaceAll (replaceAll s (cs "</p>") []) (cs "<p>") []

/-- `re.search('href="(.*?)"', s)`: first `href="` whose value closes with a
`"` on the same line; the captured value. -/
def searchHref : List Char → Option (List Char)
  | [] => none
  | c :: rest =>
    if isPre (cs "href=\"") (c :: rest) then
      let v := ((c :: rest).drop 6).takeWhile (fun x => decide (x ≠ '"') && decide (x ≠ '\n'))
      if isPre (cs "\"") (((c :: rest).drop 6).drop v.length) then some v
      else searchHref rest
    else searchHref rest

/-- `'<a id="test" href="%s"><sup>%s</sup></a>' % (href, ref_id)`. -/
def superscript (href : List Char) (d : Char) : List Char :=
  cs "<a id=\"test\" href=\"" ++ href ++ cs "\"><sup>" ++ [d] ++ cs "</sup></a>"

/-- The per-reference loop body: `none` models the raised lookup error. -/
def processRefs : List (Bool × List Char × Char) → List Char → Option (List Char)
  | [], content => some content
  | (isNL, raw, d) :: rest, content =>
    let fr := stripP (if isNL then stripP raw else raw)
    let content1 := replaceAll content fr []
    match searchHref fr with
    | none => none
    | some href =>
      processRefs rest (replaceAll content1 (cs "[^" ++ [d] ++ cs "]") (superscript href d))

/-- `FileConverter._convert_references`. -/
def convert_references (content : List Char) : Option (List Char) :=
  processRefs (findRefs content) content

end FileConverter

example : FileConverter.convert_references
    (cs "<p>text[^1] more[^1]</p>\n[^1]: <a href=\"http://x\">x</a>") =
    some (cs "<p>text<a id=\"test\" href=\"http://x\"><sup>1</sup></a> more<a id=\"test\" href=\"http://x\"><sup>1</sup></a></p>\n") := by decide

example : FileConverter.convert_references (cs "some\n[^1]: no link here") = none := by decide

example : FileConverter.convert_references
    (cs "text[^12] more\n[^12]: <a href=\"http://x\">x</a>") =
    some (cs "text[^12] more\n[^12]: <a href=\"http://x\">x</a>") := by decide

example : FileConverter.convert_references (cs "plain text") = some (cs "plain text") := by decide

/-! ## The full pipeline and the file/session boundary -/

namespace FileConverter

/-- `FileConverter._convert_to_confluence`: admonitions, then links, then code
blocks, then references. -/
def convert_to_confluence (s : List Char) : Option (List Char) :=
  match convert_info_macros s with
  | none => none
  | some s1 =>
    match convert_code_block (convert_links s1) with
    | none => none
    | some s3 => convert_references s3

end FileConverter

/-- `ProcessedFile` namedtuple. -/
structure ProcessedFile where
  title : List Char
  content : List Char
deriving DecidableEq

/-- `os.path.join` for the cases arising from `os.listdir`. -/
def pyJoin (dir name : List Char) : List Char :=
  if isPre (cs "/") name then name
  else if dir = [] then name
  else if dir.getLast? = some '/' then dir ++ name
  else dir ++ '/' :: name

/-- The suffix-stripping part of `pathlib.Path(p).stem` on the final
component: a suffix needs a dot that is neither the first nor the last
character of the name. -/
def stemOfName (comp : List Char) : List Char :=
  let ext := comp.reverse.takeWhile (fun c => decide (c ≠ '.'))
  if ext.length < comp.length then
    let j := comp.length - ext.length - 1
    if 0 < j ∧ j < comp.length - 1 then comp.take j else comp
  else comp

/-- `pathlib.Path(p).stem`: final component, last suffix removed. -/
def stem (path : List Char) : List Char :=
  stemOfName ((path.reverse.takeWhile (fun c => decide (c ≠ '/'))).reverse)

/-- Python `str.endswith`. -/
def endsWith (sfx s : List Char) : Bool := isPre sfx.reverse s.reverse

namespace FileConverter

/-- `FileConverter._process_a_file`, abstracting over the external Markdown
renderer and over file reading (the entry carries its contents).  The outer
`Option` models an exception escaping the pipeline; the inner `Option` is the
`None` returned for an unrecognized extension. -/
def process_a_file (render : List Char → List Char) (path content : List Char) :
    Option (Option ProcessedFile) :=
  if endsWith (cs ".md") path then
    (convert_to_confluence (render content)).map (fun out => some ⟨stem path, out⟩)
  else if endsWith (cs ".html") path then
    (convert_to_confluence content).map (fun out => some ⟨stem path, out⟩)
  else some none

/-- `FileConverter.convert` on a directory: one slot per entry of
`os.listdir`, in enumeration order. -/
def convert_dir (render : List Char → List Char) (dir : List Char)
    (entries : List (List Char × List Char)) : Option (List (Option ProcessedFile)) :=
  entries.mapM (fun e => process_a_file render (pyJoin dir e.1) e.2)

end FileConverter

/-- `Configuration` namedtuple; the four credential fields are optional
(`argparse` defaults them to `None`). -/
structure Configuration where
  confluence_url : List Char
  user_name : Option (List Char)
  user_pass : Option (List Char)
  ssl_key : Option (List Char)
  ssl_cert : Option (List Char)
  files : List Char
  space : List Char
  space_key : List Char
deriving DecidableEq

/-- The two kinds of Confluence session the builder can produce. -/
inductive Session where
  | userPass (url u p : List Char)
  | keyCert (url k c : List Char)
deriving DecidableEq

/-- `ConfluenceSessionBuilder.build`: username/password pair first, else
key/certificate pair, else `ValueError`. -/
def ConfluenceSessionBuilder.build (config : Configuration) : Except (List Char) Session :=
  match config.user_name, config.user_pass with
  | some u, some p => Except.ok (Session.userPass config.confluence_url u p)
  | _, _ =>
    match config.ssl_key, config.ssl_cert with
    | some k, some c => Except.ok (Session.keyCert config.confluence_url k c)
    | _, _ => Except.error (cs "Invalid arguments provided")

example : FileConverter.convert_to_confluence (cs "") = some (cs "") := by decide

example : FileConverter.convert_to_confluence (cs "<pre><code>a.md&quot;</code></pre>") =
    some (FileConverter.code_header ++ cs "<ac:parameter ac:name=\"language\">none</ac:parameter><ac:plain-text-body><![CDATA[a.md\"]]></ac:plain-text-body></ac:structured-macro>") := by decide

example : stem (cs "data/empty/empty_md.md") = cs "empty_md" := by decide

/-! ## Claims C2, C8, C9, C10 -/

/-- **C2 (code bug).**  Blockquote classification is genuinely
case-insensitive (`re.search(..., re.IGNORECASE)`), but the label stripping in
`_strip_type` passes `re.IGNORECASE` (= 2) as the positional *count* argument
of `re.sub`, so stripping is case-sensitive.  For the lowercase label the
blockquote is classified `note` but the label is kept (only its first letter
is uppercased); for the exact-case label the claim's expected output is
produced. -/
theorem claim_C2_bug :
    FileConverter.convert_info_macros (cs "<blockquote><p>note: text</p></blockquote>") =
      some (cs "<p><ac:structured-macro ac:name=\"note\"><ac:rich-text-body><p>Note: text</p></ac:rich-text-body></ac:structured-macro></p>") ∧
    FileConverter.convert_info_macros (cs "<blockquote><p>Note: text</p></blockquote>") =
      some (cs "<p><ac:structured-macro ac:name=\"note\"><ac:rich-text-body><p>Text</p></ac:rich-text-body></ac:structured-macro></p>") :=
  ⟨by decide, by decide⟩

theorem processRefs_none (refs : List (Bool × List Char × Char)) :
    ∀ content, (∃ r ∈ refs,
      FileConverter.searchHref
        (FileConverter.stripP (if r.1 then FileConverter.stripP r.2.1 else r.2.1)) = none) →
    FileConverter.processRefs refs content = none := by
  induction refs with
  | nil =>
    intro content h
    obtain ⟨r, hr, _⟩ := h
    cases hr
  | cons r rest ih =>
    intro content h
    obtain ⟨isNL, raw, d⟩ := r
    unfold FileConverter.processRefs
    cases hs : FileConverter.searchHref
        (FileConverter.stripP (if isNL then FileConverter.stripP raw else raw)) with
    | none =>
      dsimp only
      rw [hs]
    | some href =>
      dsimp only
      rw [hs]
      obtain ⟨r', hr', hnone⟩ := h
      rcases List.mem_cons.mp hr' with hr' | hr'
      · subst hr'
        simp only at hnone
        rw [hnone] at hs
        cases hs
      · exact ih _ ⟨r', hr', hnone⟩

/-- **C8.**  When some footnote definition found by the `findall` scan has no
resolvable `href="..."` in it, the reference pass raises (modelled `none`): it
does not silently skip the definition. -/
theorem claim_C8 (content : List Char)
    (h : ∃ r ∈ FileConverter.findRefs content,
      FileConverter.searchHref
        (FileConverter.stripP (if r.1 then FileConverter.stripP r.2.1 else r.2.1)) = none) :
    FileConverter.convert_references content = none :=
  processRefs_none (FileConverter.findRefs content) content h

/-- **C8 witness.** -/
theorem claim_C8_witness :
    FileConverter.convert_references (cs "some\n[^1]: no link here") = none :=
  claim_C8 (cs "some\n[^1]: no link here") (by decide)

/-- `\[\^(\d)\]` occurs somewhere in the string. -/
def hasSingleDigitRef : List Char → Bool
  | [] => false
  | c :: rest => (FileConverter.refHead (c :: rest)).isSome || hasSingleDigitRef rest

theorem hasSingleDigitRef_refHead (s : List Char) (h : hasSingleDigitRef s = false) :
    FileConverter.refHead s = none := by
  cases s with
  | nil =>
    unfold FileConverter.refHead
    rw [if_neg (by simp [isPre, cs])]
  | cons c rest =>
    simp only [hasSingleDigitRef, Bool.or_eq_false_iff] at h
    cases hrh : FileConverter.refHead (c :: rest) with
    | none => rfl
    | some d =>
      rw [hrh] at h
      simp at h

theorem hasSingleDigitRef_tail (c : Char) (rest : List Char)
    (h : hasSingleDigitRef (c :: rest) = false) : hasSingleDigitRef rest = false := by
  simp only [hasSingleDigitRef, Bool.or_eq_false_iff] at h
  exact h.2

theorem hasSingleDigitRef_drop : ∀ (n : Nat) (s : List Char),
    hasSingleDigitRef s = false → hasSingleDigitRef (s.drop n) = false
  | 0, s, h => h
  | n + 1, [], h => h
  | n + 1, c :: rest, h => hasSingleDigitRef_drop n rest (hasSingleDigitRef_tail c rest h)

theorem findRefsF_empty : ∀ (fuel : Nat) (s : List Char),
    hasSingleDigitRef s = false → FileConverter.findRefsF fuel s = [] := by
  intro fuel
  induction fuel with
  | zero =>
    intro s h
    cases s <;> rfl
  | succ fuel ih =>
    intro s h
    cases s with
    | nil => rfl
    | cons c rest =>
      have htail : hasSingleDigitRef rest = false := hasSingleDigitRef_tail c rest h
      unfold FileConverter.findRefsF
      by_cases hc : c = '\n'
      · rw [if_pos hc, hasSingleDigitRef_refHead rest htail]
        exact ih rest htail
      · rw [if_neg hc]
        by_cases hp : isPre (cs "<p>") (c :: rest) = true
        · rw [if_pos hp]
          have h3 : FileConverter.refHead ((c :: rest).drop 3) = none := by
            apply hasSingleDigitRef_refHead
            exact hasSingleDigitRef_drop 3 (c :: rest) h
          rw [h3]
          exact ih rest htail
        · rw [if_neg hp]
          exact ih rest htail

/-- **C10.**  The footnote pattern `\[\^(\d)\]` only recognizes a single
decimal digit: an input with no single-digit `[^N]` occurrence (in particular
one whose footnote ids all have two or more digits) is left unchanged — the
definition line is not removed and no inline reference is substituted. -/
theorem claim_C10 (content : List Char) (h : hasSingleDigitRef content = false) :
    FileConverter.convert_references content = some content := by
  unfold FileConverter.convert_references FileConverter.findRefs
  rw [findRefsF_empty content.length content h]
  rfl

/-- **C10 witness.**  Two-digit ids are not touched. -/
theorem claim_C10_witness :
    FileConverter.convert_references (cs "text[^12] more\n[^12]: <a href=\"http://x\">x</a>") =
      some (cs "text[^12] more\n[^12]: <a href=\"http://x\">x</a>") :=
  claim_C10 (cs "text[^12] more\n[^12]: <a href=\"http://x\">x</a>") (by decide)

/-- **C9 counterexample.**  With *both* credential pairs fully present (not
"exactly one"), session construction does not fail: the username/password
branch is taken.  This refutes the claim that construction fails whenever the
configuration does not contain exactly one of the two pairs. -/
theorem claim_C9_counterexample :
    ConfluenceSessionBuilder.build
        ⟨cs "http://c", some (cs "u"), some (cs "p"), some (cs "k"), some (cs "x"),
          cs "f", cs "s", cs "sk"⟩ =
      Except.ok (Session.userPass (cs "http://c") (cs "u") (cs "p")) := rfl

/-- **C9 (amended).**  Session construction raises the configuration error
exactly when *neither* complete pair is present; whenever the
username/password pair is complete it takes precedence and no error is raised
(even if the key/certificate pair is also present). -/
theorem claim_C9 (config : Configuration) :
    (ConfluenceSessionBuilder.build config = Except.error (cs "Invalid arguments provided") ↔
      ¬((config.user_name.isSome = true ∧ config.user_pass.isSome = true) ∨
        (config.ssl_key.isSome = true ∧ config.ssl_cert.isSome = true))) ∧
    (config.user_name.isSome = true → config.user_pass.isSome = true →
      ∃ u p, ConfluenceSessionBuilder.build config =
        Except.ok (Session.userPass config.confluence_url u p)) := by
  obtain ⟨url, un, up, sk, sc, fs, sp, spk⟩ := config
  cases un <;> cases up <;> cases sk <;> cases sc <;>
    simp [ConfluenceSessionBuilder.build]

/-- **C9 witness.**  The amended theorem applied at a concrete configuration
with both pairs present. -/
theorem claim_C9_witness :
    ∃ u p, ConfluenceSessionBuilder.build
        ⟨cs "http://c", some (cs "u"), some (cs "p"), some (cs "k"), some (cs "x"),
          cs "f", cs "s", cs "sk"⟩ =
      Except.ok (Session.userPass (cs "http://c") u p) :=
  (claim_C9 ⟨cs "http://c", some (cs "u"), some (cs "p"), some (cs "k"), some (cs "x"),
    cs "f", cs "s", cs "sk"⟩).2 (by decide) (by decide)

/-! ## Claim C7: directory conversion -/

/-- A file name the converter recognizes. -/
def recognized (path : List Char) : Bool :=
  endsWith (cs ".md") path || endsWith (cs ".html") path

theorem takeWhile_all (p : Char → Bool) (l : List Char) (h : ∀ c ∈ l, p c = true) :
    l.takeWhile p = l := by
  induction l with
  | nil => rfl
  | cons c rest ih =>
    simp only [List.takeWhile_cons, h c (List.mem_cons_self c rest), if_true]
    rw [ih (fun x hx => h x (List.mem_cons_of_mem c hx))]

theorem isPre_false_of_lt (p x : List Char) (h : x.length < p.length) :
    isPre p x = false := by
  cases hp : isPre p x
  · rfl
  · rw [isPre_eq_true_iff] at hp
    have := hp.length_le
    omega

theorem isPre_append_of_le : ∀ (p x y : List Char), p.length ≤ x.length →
    isPre p (x ++ y) = isPre p x
  | [], x, y, _ => by simp [isPre]
  | p :: ps, [], y, h => by simp at h
  | p :: ps, c :: xs, y, h => by
    simp only [List.cons_append, isPre, List.append_eq]
    rw [isPre_append_of_le ps xs y (by simpa using Nat.le_of_succ_le_succ h)]

theorem isPre_append_slash_false : ∀ (p x ytail : List Char),
    (∀ c ∈ p, c ≠ '/') → x.length < p.length → isPre p (x ++ '/' :: ytail) = false
  | [], x, yt, hp, hl => by simp at hl
  | p0 :: ps, [], yt, hp, hl => by
    have h0 : p0 ≠ '/' := hp p0 (List.mem_cons_self p0 ps)
    simp only [List.nil_append, isPre]
    simp [h0]
  | p0 :: ps, c :: xs, yt, hp, hl => by
    simp only [List.cons_append, isPre, List.append_eq]
    rw [isPre_append_slash_false ps xs yt (fun d hd => hp d (List.mem_cons_of_mem p0 hd))
      (by simp only [List.length_cons] at hl ⊢; omega)]
    simp

theorem reverse_head_of_getLast (dir : List Char) (hne : dir ≠ [])
    (h : dir.getLast? = some '/') : ∃ dt, dir.reverse = '/' :: dt := by
  cases hd : dir.reverse with
  | nil =>
    exfalso
    exact hne (by simpa using congrArg List.reverse hd)
  | cons d0 dt =>
    refine ⟨dt, ?_⟩
    have h1 : dir.reverse.head? = some d0 := by rw [hd]; rfl
    rw [List.head?_reverse] at h1
    rw [h] at h1
    cases h1
    rfl

theorem endsWith_append_slash (sfx B name : List Char)
    (hsfx : ∀ c ∈ sfx, c ≠ '/') (hB : ∃ dt, B.reverse = '/' :: dt) :
    endsWith sfx (B ++ name) = endsWith sfx name := by
  unfold endsWith
  rw [List.reverse_append]
  rcases le_or_lt sfx.reverse.length name.reverse.length with hle | hlt
  · exact isPre_append_of_le _ _ _ hle
  · obtain ⟨dt, hdt⟩ := hB
    rw [hdt]
    rw [isPre_append_slash_false _ _ _ (fun c hc => hsfx c (List.mem_reverse.mp hc)) hlt]
    rw [isPre_false_of_lt _ _ hlt]

theorem endsWith_pyJoin (sfx dir name : List Char)
    (hsfx : ∀ c ∈ sfx, c ≠ '/') (hname : ∀ c ∈ name, c ≠ '/') :
    endsWith sfx (pyJoin dir name) = endsWith sfx name := by
  unfold pyJoin
  have h1 : isPre (cs "/") name = false := by
    cases name with
    | nil => rfl
    | cons c rest =>
      have : cs "/" = ['/'] := rfl
      rw [this]
      have hc : c ≠ '/' := hname c (List.mem_cons_self c rest)
      simp [isPre, Ne.symm hc]
  rw [h1]
  simp only [Bool.false_eq_true, if_false]
  by_cases h2 : dir = []
  · rw [if_pos h2]
  · rw [if_neg h2]
    by_cases h3 : dir.getLast? = some '/'
    · rw [if_pos h3]
      exact endsWith_append_slash sfx dir name hsfx (reverse_head_of_getLast dir h2 h3)
    · rw [if_neg h3]
      have : dir ++ '/' :: name = (dir ++ ['/']) ++ name := by simp
      rw [this]
      exact endsWith_append_slash sfx (dir ++ ['/']) name hsfx ⟨dir.reverse, by simp⟩

theorem stem_append_slash (B name : List Char)
    (hB : ∃ dt, B.reverse = '/' :: dt) (hname : ∀ c ∈ name, c ≠ '/') :
    stem (B ++ name) = stem name := by
  unfold stem
  congr 1
  obtain ⟨dt, hdt⟩ := hB
  have hall : ∀ c ∈ name.reverse, (fun c => decide (c ≠ '/')) c = true := by
    intro c hc
    simpa using hname c (List.mem_reverse.mp hc)
  rw [List.reverse_append, hdt, takeWhile_append_all _ _ _ hall]
  simp only [List.takeWhile_cons]
  rw [takeWhile_all _ name.reverse hall]
  simp

theorem stem_pyJoin (dir name : List Char) (hname : ∀ c ∈ name, c ≠ '/') :
    stem (pyJoin dir name) = stem name := by
  unfold pyJoin
  have h1 : isPre (cs "/") name = false := by
    cases name with
    | nil => rfl
    | cons c rest =>
      have : cs "/" = ['/'] := rfl
      rw [this]
      have hc : c ≠ '/' := hname c (List.mem_cons_self c rest)
      simp [isPre, Ne.symm hc]
  rw [h1]
  simp only [Bool.false_eq_true, if_false]
  by_cases h2 : dir = []
  · rw [if_pos h2]
  · rw [if_neg h2]
    by_cases h3 : dir.getLast? = some '/'
    · rw [if_pos h3]
      exact stem_append_slash dir name (reverse_head_of_getLast dir h2 h3) hname
    · rw [if_neg h3]
      have : dir ++ '/' :: name = (dir ++ ['/']) ++ name := by simp
      rw [this]
      exact stem_append_slash (dir ++ ['/']) name ⟨dir.reverse, by simp⟩ hname

theorem process_a_file_spec (render : List Char → List Char) (path content : List Char)
    (x : Option ProcessedFile)
    (h : FileConverter.process_a_file render path content = some x) :
    (recognized path = false → x = none) ∧
    (recognized path = true → ∃ pf, x = some pf ∧ pf.title = stem path) := by
  unfold FileConverter.process_a_file at h
  by_cases hmd : endsWith (cs ".md") path = true
  · rw [if_pos hmd] at h
    simp only [Option.map_eq_some'] at h
    obtain ⟨out, hout, hx⟩ := h
    constructor
    · intro hrec
      rw [recognized, hmd] at hrec
      simp at hrec
    · intro _
      exact ⟨⟨stem path, out⟩, hx.symm, rfl⟩
  · rw [if_neg hmd] at h
    by_cases hhtml : endsWith (cs ".html") path = true
    · rw [if_pos hhtml] at h
      simp only [Option.map_eq_some'] at h
      obtain ⟨out, hout, hx⟩ := h
      constructor
      · intro hrec
        rw [recognized, hhtml] at hrec
        simp at hrec
      · intro _
        exact ⟨⟨stem path, out⟩, hx.symm, rfl⟩
    · rw [if_neg hhtml] at h
      have hx : x = none := by
        cases h
        rfl
      constructor
      · intro _
        exact hx
      · intro hrec
        rw [recognized] at hrec
        rw [eq_false_of_ne_true hmd, eq_false_of_ne_true hhtml] at hrec
        simp at hrec

/-- **C7.**  Directory conversion produces one result slot per directory entry
in enumeration order: recognized entries (`.md`/`.html`) become files titled
with the entry's base name (extension and path stripped), any other entry
yields an absent slot (`none`), not an error. -/
theorem claim_C7 (render : List Char → List Char) (dir : List Char)
    (entries : List (List Char × List Char))
    (hname : ∀ e ∈ entries, ∀ c ∈ e.1, c ≠ '/')
    (hok : ∀ e ∈ entries, FileConverter.process_a_file render (pyJoin dir e.1) e.2 ≠ none) :
    ∃ l, FileConverter.convert_dir render dir entries = some l ∧
      l.length = entries.length ∧
      ∀ i (hi : i < entries.length) (hi' : i < l.length),
        (recognized (entries.get ⟨i, hi⟩).1 = false → l.get ⟨i, hi'⟩ = none) ∧
        (recognized (entries.get ⟨i, hi⟩).1 = true →
          ∃ pf, l.get ⟨i, hi'⟩ = some pf ∧ pf.title = stem (entries.get ⟨i, hi⟩).1) := by
  induction entries with
  | nil =>
    refine ⟨[], rfl, rfl, ?_⟩
    intro i hi
    simp at hi
  | cons e es ih =>
    have hoke := hok e (List.mem_cons_self e es)
    cases hx : FileConverter.process_a_file render (pyJoin dir e.1) e.2 with
    | none => exact absurd hx hoke
    | some x =>
      obtain ⟨l', hl', hlen', hprop'⟩ := ih
        (fun d hd => hname d (List.mem_cons_of_mem e hd))
        (fun d hd => hok d (List.mem_cons_of_mem e hd))
      refine ⟨x :: l', ?_, by simp [hlen'], ?_⟩
      · unfold FileConverter.convert_dir at hl' ⊢
        rw [List.mapM_cons, hx, hl']
        rfl
      · intro i hi hi'
        have hrecj : recognized (pyJoin dir e.1) = recognized e.1 := by
          unfold recognized
          rw [endsWith_pyJoin (cs ".md") dir e.1 (by decide) (hname e (List.mem_cons_self e es)),
            endsWith_pyJoin (cs ".html") dir e.1 (by decide) (hname e (List.mem_cons_self e es))]
        have hstemj : stem (pyJoin dir e.1) = stem e.1 :=
          stem_pyJoin dir e.1 (hname e (List.mem_cons_self e es))
        cases i with
        | zero =>
          have hspec := process_a_file_spec render (pyJoin dir e.1) e.2 x hx
          constructor
          · intro hrec
            simp only [List.get] at *
            apply hspec.1
            rw [hrecj]
            exact hrec
          · intro hrec
            simp only [List.get] at *
            obtain ⟨pf, hpf, htitle⟩ := hspec.2 (by rw [hrecj]; exact hrec)
            exact ⟨pf, hpf, by rw [htitle, hstemj]⟩
        | succ i =>
          have hi2 : i < es.length := by simpa using hi
          have hi2' : i < l'.length := by simpa using hi'
          have := hprop' i hi2 hi2'
          simpa using this

/-- **C7 witness.**  A directory with three entries, the middle one
unrecognized: the result has length three, slots 0 and 2 are files titled
`empty_html` and `empty_md`, slot 1 is absent. -/
theorem claim_C7_witness :
    ∃ l, FileConverter.convert_dir (fun s => s) (cs "data/empty")
        [(cs "empty_html.html", cs ""), (cs "notes.txt", cs "x"), (cs "empty_md.md", cs "")] =
      some l ∧
      l.length = 3 ∧
      ∀ i (hi : i < 3) (hi' : i < l.length),
        (recognized ([(cs "empty_html.html", cs ""), (cs "notes.txt", cs "x"),
            (cs "empty_md.md", cs "")].get ⟨i, hi⟩).1 = false → l.get ⟨i, hi'⟩ = none) ∧
        (recognized ([(cs "empty_html.html", cs ""), (cs "notes.txt", cs "x"),
            (cs "empty_md.md", cs "")].get ⟨i, hi⟩).1 = true →
          ∃ pf, l.get ⟨i, hi'⟩ = some pf ∧
            pf.title = stem ([(cs "empty_html.html", cs ""), (cs "notes.txt", cs "x"),
              (cs "empty_md.md", cs "")].get ⟨i, hi⟩).1) :=
  claim_C7 (fun s => s) (cs "data/empty")
    [(cs "empty_html.html", cs ""), (cs "notes.txt", cs "x"), (cs "empty_md.md", cs "")]
    (by decide) (by decide)

/-! ## Claim C3: footnote substitution -/

theorem length_takeWhile_le' (p : Char → Bool) (l : List Char) :
    (l.takeWhile p).length ≤ l.length :=
  (List.takeWhile_prefix p).length_le

theorem findRefsF_fuel : ∀ f g s, s.length ≤ f → s.length ≤ g →
    FileConverter.findRefsF f s = FileConverter.findRefsF g s := by
  intro f
  induction f with
  | zero =>
    intro g s hf _
    have : s = [] := List.eq_nil_of_length_eq_zero (Nat.le_zero.mp hf)
    subst this
    cases g <;> rfl
  | succ f ih =>
    intro g s hf hg
    cases s with
    | nil => cases g <;> rfl
    | cons c rest =>
      cases g with
      | zero => simp at hg
      | succ g =>
        simp only [List.length_cons] at hf hg
        simp only [FileConverter.findRefsF]
        by_cases hc : c = '\n'
        · rw [if_pos hc, if_pos hc]
          cases hrh : FileConverter.refHead rest with
          | none => rw [ih g rest (by omega) (by omega)]
          | some d =>
            dsimp only
            have hraw : (rest.takeWhile (fun x => decide (x ≠ '\n'))).length ≤ rest.length :=
              length_takeWhile_le' _ _
            congr 1
            apply ih
            · simp only [List.length_drop, List.length_cons]
              omega
            · simp only [List.length_drop, List.length_cons]
              omega
        · rw [if_neg hc, if_neg hc]
          by_cases hp : isPre (cs "<p>") (c :: rest) = true
          · rw [if_pos hp, if_pos hp]
            cases hrh : FileConverter.refHead ((c :: rest).drop 3) with
            | none => rw [ih g rest (by omega) (by omega)]
            | some d =>
              dsimp only
              have hraw : (((c :: rest).drop 3).takeWhile (fun x => decide (x ≠ '\n'))).length ≤
                  ((c :: rest).drop 3).length := length_takeWhile_le' _ _
              simp only [List.length_drop, List.length_cons] at hraw
              congr 1
              apply ih
              · simp only [List.length_drop, List.length_cons]
                omega
              · simp only [List.length_drop, List.length_cons]
                omega
          · rw [if_neg hp, if_neg hp]
            rw [ih g rest (by omega) (by omega)]

theorem findRefs_cons_skip (c : Char) (rest : List Char) (hc : c ≠ '\n') (hlt : c ≠ '<') :
    FileConverter.findRefs (c :: rest) = FileConverter.findRefs rest := by
  show FileConverter.findRefsF (rest.length + 1) (c :: rest) = _
  have hp : isPre (cs "<p>") (c :: rest) = false := by
    have h1 : cs "<p>" = '<' :: cs "p>" := rfl
    rw [h1]
    simp [isPre, Ne.symm hlt]
  simp only [FileConverter.findRefsF, if_neg hc, hp, Bool.false_eq_true, if_false]
  rfl

theorem findRefs_append_skip (a b : List Char) (h : ∀ c ∈ a, c ≠ '\n' ∧ c ≠ '<') :
    FileConverter.findRefs (a ++ b) = FileConverter.findRefs b := by
  induction a with
  | nil => rfl
  | cons c rest ih =>
    have hc := h c (List.mem_cons_self c rest)
    simp only [List.cons_append]
    rw [findRefs_cons_skip c (rest ++ b) hc.1 hc.2]
    exact ih (fun x hx => h x (List.mem_cons_of_mem c hx))

theorem searchHref_cons_skip (c : Char) (rest : List Char) (hc : c ≠ 'h') :
    FileConverter.searchHref (c :: rest) = FileConverter.searchHref rest := by
  have hpre : isPre (cs "href=\"") (c :: rest) = false := by
    have h1 : cs "href=\"" = 'h' :: cs "ref=\"" := rfl
    rw [h1]
    simp [isPre, Ne.symm hc]
  conv_lhs => unfold FileConverter.searchHref
  rw [hpre]
  simp

theorem searchHref_skip (a b : List Char) (h : ∀ c ∈ a, c ≠ 'h') :
    FileConverter.searchHref (a ++ b) = FileConverter.searchHref b := by
  induction a with
  | nil => rfl
  | cons c rest ih =>
    simp only [List.cons_append]
    rw [searchHref_cons_skip c (rest ++ b) (h c (List.mem_cons_self c rest))]
    exact ih (fun x hx => h x (List.mem_cons_of_mem c hx))

theorem searchHref_found (url t : List Char)
    (hurl : ∀ c ∈ url, c ≠ '"' ∧ c ≠ '\n') :
    FileConverter.searchHref (cs "href=\"" ++ (url ++ '"' :: t)) = some url := by
  have hsplit : cs "href=\"" ++ (url ++ '"' :: t) =
      'h' :: (cs "ref=\"" ++ (url ++ '"' :: t)) := rfl
  rw [hsplit]
  unfold FileConverter.searchHref
  have hpre : isPre (cs "href=\"") ('h' :: (cs "ref=\"" ++ (url ++ '"' :: t))) = true := by
    have h1 : 'h' :: (cs "ref=\"" ++ (url ++ '"' :: t)) = cs "href=\"" ++ (url ++ '"' :: t) := rfl
    rw [h1]
    exact isPre_refl_append _ _
  rw [hpre]
  dsimp only
  have hdrop6 : ('h' :: (cs "ref=\"" ++ (url ++ '"' :: t))).drop 6 = url ++ '"' :: t := by
    have h1 : 'h' :: (cs "ref=\"" ++ (url ++ '"' :: t)) = cs "href=\"" ++ (url ++ '"' :: t) := rfl
    have h6 : (6 : Nat) = (cs "href=\"").length := rfl
    rw [h1, h6, List.drop_left]
  rw [hdrop6]
  have htw : (url ++ '"' :: t).takeWhile (fun x => decide (x ≠ '"') && decide (x ≠ '\n')) =
      url := by
    rw [takeWhile_append_all _ url _ (by
      intro c hc
      have := hurl c hc
      simp [this.1, this.2])]
    simp [List.takeWhile_cons]
  have hdropu : (url ++ '"' :: t).drop url.length = '"' :: t := List.drop_left _ _
  have hq : isPre (cs "\"") ('"' :: t) = true := by
    have h1 : cs "\"" = ['"'] := rfl
    rw [h1]
    simp [isPre]
  rw [htw, hdropu, if_pos hq]
  rfl

theorem findRefsF_nil (f : Nat) : FileConverter.findRefsF f [] = [] := by
  cases f <;> rfl

theorem processRefs_nl_cons (raw : List Char) (d : Char)
    (rest : List (Bool × List Char × Char)) (content : List Char) :
    FileConverter.processRefs ((true, raw, d) :: rest) content =
      match FileConverter.searchHref (FileConverter.stripP (FileConverter.stripP raw)) with
      | none => none
      | some href =>
        FileConverter.processRefs rest
          (replaceAll (replaceAll content (FileConverter.stripP (FileConverter.stripP raw)) [])
            (cs "[^" ++ [d] ++ cs "]") (FileConverter.superscript href d)) := rfl

theorem defref_no_nl (url : List Char)
    (hurl : ∀ c ∈ url, c ≠ '"' ∧ c ≠ '\n' ∧ c ≠ '<' ∧ c ≠ '[') :
    ∀ c ∈ cs "[^1]: <a href=\"" ++ (url ++ cs "\">x</a>"), c ≠ '\n' := by
  intro c hc
  rcases List.mem_append.mp hc with hc | hc
  · have hdec : ∀ x ∈ cs "[^1]: <a href=\"", x ≠ '\n' := by decide
    exact hdec c hc
  · rcases List.mem_append.mp hc with hc | hc
    · exact (hurl c hc).2.1
    · have hdec : ∀ x ∈ cs "\">x</a>", x ≠ '\n' := by decide
      exact hdec c hc

theorem findRefs_def_line (url : List Char)
    (hurl : ∀ c ∈ url, c ≠ '"' ∧ c ≠ '\n' ∧ c ≠ '<' ∧ c ≠ '[') :
    FileConverter.findRefs ('\n' :: (cs "[^1]: <a href=\"" ++ (url ++ cs "\">x</a>"))) =
      [(true, cs "[^1]: <a href=\"" ++ (url ++ cs "\">x</a>"), '1')] := by
  show FileConverter.findRefsF
      ((cs "[^1]: <a href=\"" ++ (url ++ cs "\">x</a>")).length + 1)
      ('\n' :: (cs "[^1]: <a href=\"" ++ (url ++ cs "\">x</a>"))) = _
  unfold FileConverter.findRefsF
  rw [if_pos rfl]
  have hrh : FileConverter.refHead (cs "[^1]: <a href=\"" ++ (url ++ cs "\">x</a>")) =
      some '1' := by
    have h1 : cs "[^1]: <a href=\"" ++ (url ++ cs "\">x</a>") =
        '[' :: '^' :: '1' :: ']' :: (cs ": <a href=\"" ++ (url ++ cs "\">x</a>")) := rfl
    rw [h1]
    unfold FileConverter.refHead
    rw [if_pos (by
      have h2 : cs "[^" = ['[', '^'] := rfl
      rw [h2]
      simp [isPre])]
    rfl
  rw [hrh]
  dsimp only
  have hraw : (cs "[^1]: <a href=\"" ++ (url ++ cs "\">x</a>")).takeWhile
      (fun x => decide (x ≠ '\n')) = cs "[^1]: <a href=\"" ++ (url ++ cs "\">x</a>") := by
    apply takeWhile_all
    intro c hc
    simpa using defref_no_nl url hurl c hc
  rw [hraw]
  have hdrop : ('\n' :: (cs "[^1]: <a href=\"" ++ (url ++ cs "\">x</a>"))).drop
      (1 + (cs "[^1]: <a href=\"" ++ (url ++ cs "\">x</a>")).length) = [] := by
    apply List.drop_of_length_le
    simp only [List.length_cons]
    omega
  rw [hdrop, findRefsF_nil]

/-- **C3.**  For a body with two inline `[^1]` references and a trailing
footnote definition line carrying `href="<url>"`, the reference pass deletes
the definition (the newline that preceded it remains) and substitutes *every*
inline occurrence of `[^1]` by the same superscript anchor to the extracted
href — replace-all semantics, not replace-first. -/
theorem claim_C3 (pre mid url : List Char)
    (hpre : ∀ c ∈ pre, c ≠ '\n' ∧ c ≠ '<' ∧ c ≠ '[')
    (hmid : ∀ c ∈ mid, c ≠ '\n' ∧ c ≠ '<' ∧ c ≠ '[')
    (hurl : ∀ c ∈ url, c ≠ '"' ∧ c ≠ '\n' ∧ c ≠ '<' ∧ c ≠ '[')
    (hsafe : noMatchWithin (cs "[^1]: <a href=\"" ++ (url ++ cs "\">x</a>"))
      (pre ++ cs "[^1]" ++ mid ++ cs "[^1]" ++ cs "\n") = true) :
    FileConverter.convert_references
        (pre ++ cs "[^1]" ++ mid ++ cs "[^1]" ++ cs "\n" ++
          (cs "[^1]: <a href=\"" ++ url ++ cs "\">x</a>")) =
      some (pre ++ (cs "<a id=\"test\" href=\"" ++ url ++ cs "\"><sup>1</sup></a>") ++ mid ++
        (cs "<a id=\"test\" href=\"" ++ url ++ cs "\"><sup>1</sup></a>") ++ cs "\n") := by
  have hpre1 : ∀ c ∈ pre, c ≠ '[' := fun c hc => (hpre c hc).2.2
  have hmid1 : ∀ c ∈ mid, c ≠ '[' := fun c hc => (hmid c hc).2.2
  -- the definition text, with the url associated to the right
  have hDassoc : cs "[^1]: <a href=\"" ++ url ++ cs "\">x</a>" =
      cs "[^1]: <a href=\"" ++ (url ++ cs "\">x</a>") := by simp
  -- strip of the definition is the identity
  have hnm1 : noMatchWithin (cs "</p>") (cs "[^1]: <a href=\"" ++ (url ++ cs "\">x</a>")) = true := by
    apply noMatchWithin_append
    · decide
    · apply noMatchWithin_append
      · apply noMatchWithin_of_head_ne
        intro c hc
        exact (hurl c hc).2.2.1
      · decide
  have hnm2 : noMatchWithin (cs "<p>") (cs "[^1]: <a href=\"" ++ (url ++ cs "\">x</a>")) = true := by
    apply noMatchWithin_append
    · decide
    · apply noMatchWithin_append
      · apply noMatchWithin_of_head_ne
        intro c hc
        exact (hurl c hc).2.2.1
      · decide
  have hstrip : FileConverter.stripP (cs "[^1]: <a href=\"" ++ (url ++ cs "\">x</a>")) =
      cs "[^1]: <a href=\"" ++ (url ++ cs "\">x</a>") := by
    unfold FileConverter.stripP
    rw [replaceAll_self _ _ _ (hasSubB_eq_false_of_noMatchWithin _ _ (by decide) hnm1)]
    rw [replaceAll_self _ _ _ (hasSubB_eq_false_of_noMatchWithin _ _ (by decide) hnm2)]
  -- the href search finds the url
  have hsearch : FileConverter.searchHref (cs "[^1]: <a href=\"" ++ (url ++ cs "\">x</a>")) =
      some url := by
    have hsp : cs "[^1]: <a href=\"" ++ (url ++ cs "\">x</a>") =
        cs "[^1]: <a " ++ (cs "href=\"" ++ (url ++ '"' :: cs ">x</a>")) := by
      have h1 : cs "[^1]: <a href=\"" = cs "[^1]: <a " ++ cs "href=\"" := rfl
      have h2 : cs "\">x</a>" = '"' :: cs ">x</a>" := rfl
      rw [h1, h2]
      simp
    rw [hsp, searchHref_skip _ _ (by decide),
      searchHref_found url (cs ">x</a>") (fun c hc => ⟨(hurl c hc).1, (hurl c hc).2.1⟩)]
  -- the body is scanned past, the definition line is found
  have hA0 : ∀ c ∈ pre ++ cs "[^1]" ++ mid ++ cs "[^1]", c ≠ '\n' ∧ c ≠ '<' := by
    intro c hc
    simp only [List.append_assoc, List.mem_append] at hc
    rcases hc with hc | hc | hc | hc
    · exact ⟨(hpre c hc).1, (hpre c hc).2.1⟩
    · have hdec : ∀ x ∈ cs "[^1]", x ≠ '\n' ∧ x ≠ '<' := by decide
      exact hdec c hc
    · exact ⟨(hmid c hc).1, (hmid c hc).2.1⟩
    · have hdec : ∀ x ∈ cs "[^1]", x ≠ '\n' ∧ x ≠ '<' := by decide
      exact hdec c hc
  have hfind : FileConverter.findRefs
      (pre ++ cs "[^1]" ++ mid ++ cs "[^1]" ++ cs "\n" ++
        (cs "[^1]: <a href=\"" ++ url ++ cs "\">x</a>")) =
      [(true, cs "[^1]: <a href=\"" ++ (url ++ cs "\">x</a>"), '1')] := by
    rw [hDassoc]
    have hshape : pre ++ cs "[^1]" ++ mid ++ cs "[^1]" ++ cs "\n" ++
        (cs "[^1]: <a href=\"" ++ (url ++ cs "\">x</a>")) =
        (pre ++ cs "[^1]" ++ mid ++ cs "[^1]") ++
          ('\n' :: (cs "[^1]: <a href=\"" ++ (url ++ cs "\">x</a>"))) := by
      have h1 : cs "\n" = ['\n'] := rfl
      rw [h1]
      simp
    rw [hshape, findRefs_append_skip _ _ hA0, findRefs_def_line url hurl]
  unfold FileConverter.convert_references
  rw [hfind, processRefs_nl_cons, hstrip, hstrip, hsearch]
  dsimp only
  -- deleting the definition leaves the body with trailing newline
  have hdel : replaceAll
      (pre ++ cs "[^1]" ++ mid ++ cs "[^1]" ++ cs "\n" ++
        (cs "[^1]: <a href=\"" ++ url ++ cs "\">x</a>"))
      (cs "[^1]: <a href=\"" ++ (url ++ cs "\">x</a>")) [] =
      pre ++ cs "[^1]" ++ mid ++ cs "[^1]" ++ cs "\n" := by
    rw [hDassoc]
    have hshape2 : pre ++ cs "[^1]" ++ mid ++ cs "[^1]" ++ cs "\n" ++
        (cs "[^1]: <a href=\"" ++ (url ++ cs "\">x</a>")) =
        (pre ++ cs "[^1]" ++ mid ++ cs "[^1]" ++ cs "\n") ++
          ((cs "[^1]: <a href=\"" ++ (url ++ cs "\">x</a>")) ++ []) := by simp
    rw [hshape2, replaceAll_append _ _ _ _ hsafe,
      replaceAll_at_head _ _ _ (by simp [cs]), replaceAll_nil]
    simp
  rw [hdel]
  -- both inline references are replaced by the superscript anchor
  have hpat : cs "[^" ++ ['1'] ++ cs "]" = cs "[^1]" := rfl
  rw [hpat]
  have hnm_pre : noMatchWithin (cs "[^1]") pre = true := by
    have h1 : cs "[^1]" = '[' :: cs "^1]" := rfl
    rw [h1]
    exact noMatchWithin_of_head_ne '[' _ pre hpre1
  have hnm_mid : noMatchWithin (cs "[^1]") mid = true := by
    have h1 : cs "[^1]" = '[' :: cs "^1]" := rfl
    rw [h1]
    exact noMatchWithin_of_head_ne '[' _ mid hmid1
  have hshape3 : pre ++ cs "[^1]" ++ mid ++ cs "[^1]" ++ cs "\n" =
      pre ++ (cs "[^1]" ++ (mid ++ (cs "[^1]" ++ cs "\n"))) := by simp
  rw [hshape3, replaceAll_append _ _ _ _ hnm_pre,
    replaceAll_at_head _ _ _ (by simp [cs]),
    replaceAll_append _ _ _ _ hnm_mid,
    replaceAll_at_head _ _ _ (by simp [cs]),
    replaceAll_self _ _ _ (by decide)]
  unfold FileConverter.processRefs FileConverter.superscript
  simp
  rfl

/-- **C3 witness.** -/
theorem claim_C3_witness :
    FileConverter.convert_references
        (cs "see" ++ cs "[^1]" ++ cs " and" ++ cs "[^1]" ++ cs "\n" ++
          (cs "[^1]: <a href=\"" ++ cs "http://x" ++ cs "\">x</a>")) =
      some (cs "see" ++ (cs "<a id=\"test\" href=\"" ++ cs "http://x" ++ cs "\"><sup>1</sup></a>") ++
        cs " and" ++ (cs "<a id=\"test\" href=\"" ++ cs "http://x" ++ cs "\"><sup>1</sup></a>") ++
        cs "\n") :=
  claim_C3 (cs "see") (cs " and") (cs "http://x") (by decide) (by decide) (by decide) (by decide)

/-! ## Claims C6 and C5 -/

theorem findQuotesF_empty : ∀ (fuel : Nat) (s : List Char),
    hasSubB (cs "<blockquote>") s = false → FileConverter.findQuotesF fuel s = [] := by
  intro fuel
  induction fuel with
  | zero =>
    intro s h
    cases s <;> rfl
  | succ fuel ih =>
    intro s h
    cases s with
    | nil => rfl
    | cons c rest =>
      simp only [hasSubB, Bool.or_eq_false_iff] at h
      unfold FileConverter.findQuotesF
      rw [h.1]
      simp only [Bool.false_eq_true, if_false]
      exact ih rest h.2

theorem convert_doctoc_self (s : List Char)
    (h : hasSubB (cs "<!-- START doctoc") s = false) :
    FileConverter.convert_doctoc s = s := by
  unfold FileConverter.convert_doctoc
  rw [splitFirst_none _ _ h]

theorem convert_info_macros_self (s : List Char)
    (h1 : hasSubB (cs "<p>~?") s = false) (h2 : hasSubB (cs "?~</p>") s = false)
    (h3 : hasSubB (cs "<p>~!") s = false) (h4 : hasSubB (cs "!~</p>") s = false)
    (h5 : hasSubB (cs "<p>~%") s = false) (h6 : hasSubB (cs "%~</p>") s = false)
    (h7 : hasSubB (cs "<blockquote>") s = false)
    (h8 : hasSubB (cs "<!-- START doctoc") s = false) :
    FileConverter.convert_info_macros s = some s := by
  unfold FileConverter.convert_info_macros
  dsimp only
  rw [replaceAll_self _ _ _ h1, replaceAll_self _ _ _ h2, replaceAll_self _ _ _ h3,
    replaceAll_self _ _ _ h4, replaceAll_self _ _ _ h5, replaceAll_self _ _ _ h6]
  unfold FileConverter.findQuotes
  rw [findQuotesF_empty _ _ h7]
  unfold FileConverter.processQuotes
  simp [convert_doctoc_self s h8]

theorem convert_links_self (s : List Char)
    (h1 : hasSubB (cs ".md\"") s = false) (h2 : hasSubB (cs ".html#") s = false)
    (h3 : hasSubB (cs "<a") s = false) :
    FileConverter.convert_links s = s := by
  rw [convert_links_eq, replaceAll_self _ _ _ h1, replaceAll_self _ _ _ h2,
    scanLinks_self _ h3]

theorem hasSingleDigitRef_of_no_bracket (s : List Char)
    (h : hasSubB (cs "[^") s = false) : hasSingleDigitRef s = false := by
  induction s with
  | nil => rfl
  | cons c rest ih =>
    simp only [hasSubB, Bool.or_eq_false_iff] at h
    simp only [hasSingleDigitRef, Bool.or_eq_false_iff]
    constructor
    · unfold FileConverter.refHead
      rw [h.1]
      simp
    · exact ih h.2

theorem convert_references_self (s : List Char)
    (h : hasSubB (cs "[^") s = false) :
    FileConverter.convert_references s = some s :=
  claim_C10 s (hasSingleDigitRef_of_no_bracket s h)

/-- **C6.**  Each of the four rewrite passes is the identity transform (and
raises no error) on an input containing none of that pass's patterns. -/
theorem claim_C6 (s : List Char) :
    (hasSubB (cs "<p>~?") s = false → hasSubB (cs "?~</p>") s = false →
     hasSubB (cs "<p>~!") s = false → hasSubB (cs "!~</p>") s = false →
     hasSubB (cs "<p>~%") s = false → hasSubB (cs "%~</p>") s = false →
     hasSubB (cs "<blockquote>") s = false → hasSubB (cs "<!-- START doctoc") s = false →
     FileConverter.convert_info_macros s = some s) ∧
    (hasSubB (cs ".md\"") s = false → hasSubB (cs ".html#") s = false →
     hasSubB (cs "<a") s = false → FileConverter.convert_links s = s) ∧
    (hasSubB (cs "<pre><code") s = false → FileConverter.convert_code_block s = some s) ∧
    (hasSubB (cs "[^") s = false → FileConverter.convert_references s = some s) :=
  ⟨convert_info_macros_self s, convert_links_self s, ccb_self s, convert_references_self s⟩

/-- **C6 witness.** -/
theorem claim_C6_witness :
    FileConverter.convert_info_macros (cs "<h1>Title</h1> plain text") =
      some (cs "<h1>Title</h1> plain text") ∧
    FileConverter.convert_links (cs "<h1>Title</h1> plain text") =
      cs "<h1>Title</h1> plain text" ∧
    FileConverter.convert_code_block (cs "<h1>Title</h1> plain text") =
      some (cs "<h1>Title</h1> plain text") ∧
    FileConverter.convert_references (cs "<h1>Title</h1> plain text") =
      some (cs "<h1>Title</h1> plain text") :=
  ⟨(claim_C6 (cs "<h1>Title</h1> plain text")).1 (by decide) (by decide) (by decide) (by decide)
      (by decide) (by decide) (by decide) (by decide),
   (claim_C6 (cs "<h1>Title</h1> plain text")).2.1 (by decide) (by decide) (by decide),
   (claim_C6 (cs "<h1>Title</h1> plain text")).2.2.1 (by decide),
   (claim_C6 (cs "<h1>Title</h1> plain text")).2.2.2 (by decide)⟩

/-- **C5 counterexample.**  The pipeline is not idempotent: for
`<pre><code>a.md&quot;</code></pre>` the first run emits a code macro whose
CDATA body contains the unescaped text `a.md"`; the second run's link pass
rewrites that body (`.md"` → `"`), altering the already-emitted macro. -/
theorem claim_C5_counterexample :
    (FileConverter.convert_to_confluence (cs "<pre><code>a.md&quot;</code></pre>")).bind
        FileConverter.convert_to_confluence ≠
      FileConverter.convert_to_confluence (cs "<pre><code>a.md&quot;</code></pre>") := by
  decide

/-- **C5 (amended).**  Re-running the pipeline on its own output does not in
general leave emitted macro blocks unchanged (see the counterexample: CDATA
bodies whose unescaped content contains a pass pattern are re-written); when
the emitted macro body contains no pass pattern the output is a fixed point,
e.g. for a fenced Python block. -/
theorem claim_C5 :
    FileConverter.convert_to_confluence
        (cs "<pre><code class=\"language-python\">print(1)</code></pre>") =
      some (FileConverter.code_header ++
        cs "<ac:parameter ac:name=\"language\">python</ac:parameter><ac:plain-text-body><![CDATA[print(1)]]></ac:plain-text-body></ac:structured-macro>") ∧
    FileConverter.convert_to_confluence
        (FileConverter.code_header ++
          cs "<ac:parameter ac:name=\"language\">python</ac:parameter><ac:plain-text-body><![CDATA[print(1)]]></ac:plain-text-body></ac:structured-macro>") =
      some (FileConverter.code_header ++
        cs "<ac:parameter ac:name=\"language\">python</ac:parameter><ac:plain-text-body><![CDATA[print(1)]]></ac:plain-text-body></ac:structured-macro>") :=
  ⟨by decide, by decide⟩
